import Mathlib

/-! Text scanning primitives of `code/AssetLib/Obj/ObjTools.h`.

A shallow embedding of the cursor primitives of the Wavefront OBJ reader and
theorems about their boundary behaviour.

* A buffer is a `List Char`; a cursor is an index into it (`0` is the first
  character, `buf.length` is the end sentinel).
* Reading a character goes through `deref`, which reports a fault on a position
  outside the buffer; moving a cursor below index `0` is a fault as well.
* Every `while` loop of the source is a function recursing on a step budget.
  The budgets handed over by the embedded functions are never exhausted (the
  theorems named `_fuel`); `hasLineEnd`, which reads no character, has enough
  budget for every cursor at or before the end sentinel.
* The forward scanners have a second, logging form that also lists the
  positions read; it is proved to compute the same result.
* `skipLines` is the driver that repeats `skipLine` until the cursor is at the
  end sentinel.
* The character predicates `IsSpace`, `IsLineEnd` and `IsSpaceOrNewLine` come
  from `assimp/ParsingUtils.h`; they are a parameter (`Classifier`).
-/

namespace Assimp

/-! ## Data model -/

/-- The three character predicates of `assimp/ParsingUtils.h` used by the
scanners. The header is not part of the sources at hand, so the scanners take
the predicates as a parameter. -/
structure Classifier where
  /-- The predicate `IsSpace`. -/
  IsSpace : Char → Bool
  /-- The predicate `IsLineEnd`. -/
  IsLineEnd : Char → Bool
  /-- The predicate `IsSpaceOrNewLine`. -/
  IsSpaceOrNewLine : Char → Bool

/-- Modelled from the spec: the predicates of `assimp/ParsingUtils.h`, absent
from the sources at hand. The specification names carriage return and newline
as line terminators and space and tab as the generic separators; a separator is
a space, a tab or a line terminator. -/
def specClassifier : Classifier where
  IsSpace c := c == ' ' || c == '\t'
  IsLineEnd c := c == '\r' || c == '\n'
  IsSpaceOrNewLine c := (c == ' ' || c == '\t') || (c == '\r' || c == '\n')

/-- What can go wrong while a primitive runs. -/
inductive Fault where
  /-- A character was read at a position outside the buffer. -/
  | readOutOfRange
  /-- A cursor standing on the first position of the buffer was decremented. -/
  | cursorBeforeBuffer
  /-- A character was stored at an index outside the destination array. -/
  | writeOutOfRange
  /-- The step budget of a loop ran out. -/
  | outOfFuel
deriving DecidableEq, Repr

/-- The expression `*it`: the character under the cursor. -/
def deref (buf : List Char) (it : Nat) : Except Fault Char :=
  match buf[it]? with
  | some c => .ok c
  | none => .error .readOutOfRange

/-- The statement `--it`. -/
def decrement (it : Nat) : Except Fault Nat :=
  if it = 0 then .error .cursorBeforeBuffer else .ok (it - 1)

/-- The statement `pBuffer[index] = c` on a destination array. -/
def store (pBuffer : List Char) (index : Nat) (c : Char) : Except Fault (List Char) :=
  if index < pBuffer.length then .ok (pBuffer.set index c) else .error .writeOutOfRange

/-- The range of `unsigned int`, the type of the line counter. -/
def UINT_RANGE : Nat := 2 ^ 32

set_option linter.unusedVariables false

/-! ## The primitives -/

/-- `isEndOfBuffer(it, end)`: true when `it == end`, otherwise true when `it`
equals the decremented `end`. (For `end = 0` the first test has already
excluded `it = 0`, so the truncated subtraction agrees with `--end`.) -/
def isEndOfBuffer (it e : Nat) : Bool :=
  if it = e then true
  else decide (it = e - 1)

/-- The loop of `getNextWord`. -/
def getNextWordLoop (K : Classifier) (buf : List Char) (pEnd : Nat) :
    Nat → Nat → Except Fault Nat
  | 0, _ => .error .outOfFuel
  | fuel + 1, pBuffer =>
    if !isEndOfBuffer pBuffer pEnd then
      match deref buf pBuffer with
      | .error f => .error f
      | .ok c =>
        if !K.IsSpaceOrNewLine c || K.IsLineEnd c then .ok pBuffer
        else getNextWordLoop K buf pEnd fuel (pBuffer + 1)
    else .ok pBuffer

/-- `getNextWord(pBuffer, pEnd)`. -/
def getNextWord (K : Classifier) (buf : List Char) (pBuffer pEnd : Nat) : Except Fault Nat :=
  getNextWordLoop K buf pEnd (buf.length + 1) pBuffer

/-- The loop of `getNextToken`. -/
def getNextTokenLoop (K : Classifier) (buf : List Char) (pEnd : Nat) :
    Nat → Nat → Except Fault Nat
  | 0, _ => .error .outOfFuel
  | fuel + 1, pBuffer =>
    if !isEndOfBuffer pBuffer pEnd then
      match deref buf pBuffer with
      | .error f => .error f
      | .ok c =>
        if K.IsSpaceOrNewLine c then .ok pBuffer
        else getNextTokenLoop K buf pEnd fuel (pBuffer + 1)
    else .ok pBuffer

/-- `getNextToken(pBuffer, pEnd)`. -/
def getNextToken (K : Classifier) (buf : List Char) (pBuffer pEnd : Nat) : Except Fault Nat :=
  match getNextTokenLoop K buf pEnd (buf.length + 1) pBuffer with
  | .error f => .error f
  | .ok p => getNextWord K buf p pEnd

/-- The loop `while (!isEndOfBuffer(it, end) && !IsLineEnd(*it)) ++it;` shared by
`skipLine` and `getName`. -/
def lineScanLoop (K : Classifier) (buf : List Char) (e : Nat) :
    Nat → Nat → Except Fault Nat
  | 0, _ => .error .outOfFuel
  | fuel + 1, it =>
    if !isEndOfBuffer it e then
      match deref buf it with
      | .error f => .error f
      | .ok c =>
        if !K.IsLineEnd c then lineScanLoop K buf e fuel (it + 1)
        else .ok it
    else .ok it

/-- The loop `while (it != end && (*it == '\t' || *it == ' ')) ++it;` of
`skipLine`. -/
def indentLoop (buf : List Char) (e : Nat) : Nat → Nat → Except Fault Nat
  | 0, _ => .error .outOfFuel
  | fuel + 1, it =>
    if it ≠ e then
      match deref buf it with
      | .error f => .error f
      | .ok c =>
        if c == '\t' || c == ' ' then indentLoop buf e fuel (it + 1)
        else .ok it
    else .ok it

/-- `skipLine(it, end, uiLine)`: the result is the new cursor together with the
new value of the line counter, an `unsigned int`. -/
def skipLine (K : Classifier) (buf : List Char) (it e uiLine : Nat) :
    Except Fault (Nat × Nat) :=
  if it ≥ e then .ok (it, uiLine)
  else
    match lineScanLoop K buf e (buf.length + 1) it with
    | .error f => .error f
    | .ok it1 =>
      let it2 := if it1 ≠ e then it1 + 1 else it1
      let uiLine2 := if it1 ≠ e then (uiLine + 1) % UINT_RANGE else uiLine
      match indentLoop buf e (buf.length + 1) it2 with
      | .error f => .error f
      | .ok it3 => .ok (it3, uiLine2)

/-- The loop `while (IsSpace(*it)) --it;` of `getName`. -/
def trimSpaceLoop (K : Classifier) (buf : List Char) : Nat → Nat → Except Fault Nat
  | 0, _ => .error .outOfFuel
  | fuel + 1, it =>
    match deref buf it with
    | .error f => .error f
    | .ok c =>
      if K.IsSpace c then
        match decrement it with
        | .error f => .error f
        | .ok it1 => trimSpaceLoop K buf fuel it1
      else .ok it

/-- The loop `while (&(*it) < pStart) ++it;` of the two name extractors. -/
def backToStartLoop (pStart : Nat) : Nat → Nat → Except Fault Nat
  | 0, _ => .error .outOfFuel
  | fuel + 1, it =>
    if it < pStart then backToStartLoop pStart fuel (it + 1)
    else .ok it

/-- The constructor call `std::string strName(pStart, &(*it))`: the characters
of the half-open range from `pStart` to `it`. -/
def rangeString (buf : List Char) (pStart it : Nat) : List Char :=
  (buf.drop pStart).take (it - pStart)

/-- `getName(it, end, name)`: the result is the returned cursor together with
the final content of `name`. The first statement overwrites the content that
`name` had on entry. -/
def getName (K : Classifier) (buf : List Char) (it e : Nat) (name : List Char) :
    Except Fault (Nat × List Char) :=
  let name0 : List Char := []
  if isEndOfBuffer it e then .ok (e, name0)
  else
    let pStart := it
    match lineScanLoop K buf e (buf.length + 1) it with
    | .error f => .error f
    | .ok it1 =>
      match trimSpaceLoop K buf (it1 + 1) it1 with
      | .error f => .error f
      | .ok it2 =>
        match backToStartLoop pStart (pStart + 1) it2 with
        | .error f => .error f
        | .ok it3 =>
          let strName := rangeString buf pStart it3
          let name1 := if !strName.isEmpty then strName else name0
          .ok (it3, name1)

/-- The first loop of `getNameNoSpace`:
`while (!isEndOfBuffer(it, end) && !IsLineEnd(*it) && !IsSpaceOrNewLine(*it)) ++it;`. -/
def wordScanLoop (K : Classifier) (buf : List Char) (e : Nat) :
    Nat → Nat → Except Fault Nat
  | 0, _ => .error .outOfFuel
  | fuel + 1, it =>
    if !isEndOfBuffer it e then
      match deref buf it with
      | .error f => .error f
      | .ok c =>
        if !K.IsLineEnd c && !K.IsSpaceOrNewLine c then wordScanLoop K buf e fuel (it + 1)
        else .ok it
    else .ok it

/-- The second loop of `getNameNoSpace`:
`while (isEndOfBuffer(it, end) || IsLineEnd(*it) || IsSpaceOrNewLine(*it)) --it;`.
The character is read only when the boundary test fails. -/
def trimSeparatorLoop (K : Classifier) (buf : List Char) (e : Nat) :
    Nat → Nat → Except Fault Nat
  | 0, _ => .error .outOfFuel
  | fuel + 1, it =>
    if isEndOfBuffer it e then
      match decrement it with
      | .error f => .error f
      | .ok it1 => trimSeparatorLoop K buf e fuel it1
    else
      match deref buf it with
      | .error f => .error f
      | .ok c =>
        if K.IsLineEnd c || K.IsSpaceOrNewLine c then
          match decrement it with
          | .error f => .error f
          | .ok it1 => trimSeparatorLoop K buf e fuel it1
        else .ok it

/-- `getNameNoSpace(it, end, name)`: the result is the returned cursor together
with the final content of `name`. The first statement overwrites the content
that `name` had on entry. -/
def getNameNoSpace (K : Classifier) (buf : List Char) (it e : Nat) (name : List Char) :
    Except Fault (Nat × List Char) :=
  let name0 : List Char := []
  if isEndOfBuffer it e then .ok (e, name0)
  else
    let pStart := it
    match wordScanLoop K buf e (buf.length + 1) it with
    | .error f => .error f
    | .ok it1 =>
      match trimSeparatorLoop K buf e (it1 + 1) it1 with
      | .error f => .error f
      | .ok it2 =>
        match backToStartLoop pStart (pStart + 1) (it2 + 1) with
        | .error f => .error f
        | .ok it3 =>
          let strName := rangeString buf pStart it3
          let name1 := if !strName.isEmpty then strName else name0
          .ok (it3, name1)

/-- The loop of `CopyNextWord`; the state is the cursor, `index` and the
destination array. The character is read before the boundary test, as in the
source. `length - 1` is a `size_t`; for `length ≥ 1` it does not wrap, and for
`length = 0` neither the wrapped value nor `0` is met by an `index ≥ 1`. -/
def CopyNextWordLoop (K : Classifier) (buf : List Char) (e length : Nat) :
    Nat → Nat → Nat → List Char → Except Fault (Nat × Nat × List Char)
  | 0, _, _, _ => .error .outOfFuel
  | fuel + 1, it, index, pBuffer =>
    match deref buf it with
    | .error f => .error f
    | .ok c =>
      if !K.IsSpaceOrNewLine c && !isEndOfBuffer it e then
        match store pBuffer index c with
        | .error f => .error f
        | .ok pBuffer1 =>
          if index + 1 = length - 1 then .ok (it, index + 1, pBuffer1)
          else CopyNextWordLoop K buf e length fuel (it + 1) (index + 1) pBuffer1
      else .ok (it, index, pBuffer)

/-- `CopyNextWord(it, end, pBuffer, length)`: the result is the returned cursor
together with the final content of the destination array `pBuffer`. -/
def CopyNextWord (K : Classifier) (buf : List Char) (it e : Nat) (pBuffer : List Char)
    (length : Nat) : Except Fault (Nat × List Char) :=
  match getNextWord K buf it e with
  | .error f => .error f
  | .ok it1 =>
    match CopyNextWordLoop K buf e length (buf.length + 1) it1 0 pBuffer with
    | .error f => .error f
    | .ok (it2, index, pBuffer1) =>
      match store pBuffer1 index (Char.ofNat 0) with
      | .error f => .error f
      | .ok pBuffer2 => .ok (it2, pBuffer2)

/-- The loop of `hasLineEnd`. The source applies `IsLineEnd` to the cursor
itself (`IsLineEnd(it)`, not `IsLineEnd(*it)`); `IsLineEndOfCursor` is that
instantiation of the predicate at the cursor type. No character is read. -/
def hasLineEndLoop (IsLineEndOfCursor : Nat → Bool) (e : Nat) : Nat → Nat → Except Fault Bool
  | 0, _ => .error .outOfFuel
  | fuel + 1, it =>
    if !isEndOfBuffer it e then
      if IsLineEndOfCursor (it + 1) then .ok true
      else hasLineEndLoop IsLineEndOfCursor e fuel (it + 1)
    else .ok false

/-- `hasLineEnd(it, end)`. -/
def hasLineEnd (IsLineEndOfCursor : Nat → Bool) (it e : Nat) : Except Fault Bool :=
  hasLineEndLoop IsLineEndOfCursor e (e + 1) it

/-! ## Definitions used in the statements and proofs -/

/-- A forward loop `while (!isEndOfBuffer(it, end) && cont(*it)) ++it;`: the
common shape of the forward scanning loops, used to reason about them. -/
def scanWhile (cont : Char → Bool) (buf : List Char) (e : Nat) :
    Nat → Nat → Except Fault Nat
  | 0, _ => .error .outOfFuel
  | fuel + 1, it =>
    if !isEndOfBuffer it e then
      match deref buf it with
      | .error f => .error f
      | .ok c => if cont c then scanWhile cont buf e fuel (it + 1) else .ok it
    else .ok it

/-- Whether position `q` holds content for `getNameNoSpace`: it is not at the
boundary and its character is neither a line terminator nor a separator. -/
def isContentAt (K : Classifier) (buf : List Char) (q : Nat) : Prop :=
  isEndOfBuffer q buf.length = false ∧
    ∃ c, buf[q]? = some c ∧ K.IsLineEnd c = false ∧ K.IsSpaceOrNewLine c = false

/-- The line `  hello world  ` followed by a newline, sixteen characters. -/
def helloWorldLine : List Char :=
  [' ', ' ', 'h', 'e', 'l', 'l', 'o', ' ', 'w', 'o', 'r', 'l', 'd', ' ', ' ', '\n']

/-- The token `polygon` followed by a space and one more token. -/
def polygonLine : List Char := ['p', 'o', 'l', 'y', 'g', 'o', 'n', ' ', '1']

/-- The text held by a terminated character array: the characters before the
first terminator. -/
def cString (pBuffer : List Char) : List Char :=
  pBuffer.takeWhile (fun c => c != Char.ofNat 0)

/-- `getFloat(it, end, value)`: the result is the returned cursor together with
the new content of `value`. The conversion routine `fast_atof` of
`assimp/fast_atof.h` and the number type are parameters; the scratch array of
`BUFFERSIZE = 1024` characters starts zero-filled. -/
def getFloat {Real : Type} (fast_atof : List Char → Real) (K : Classifier) (buf : List Char)
    (it e : Nat) (value : Real) : Except Fault (Nat × Real) :=
  let BUFFERSIZE := 1024
  let buffer := List.replicate BUFFERSIZE (Char.ofNat 0)
  match CopyNextWord K buf it e buffer BUFFERSIZE with
  | .error f => .error f
  | .ok (it1, buffer1) => .ok (it1, fast_atof (cString buffer1))

/-! ## The forward scanners with a log of the positions read

Each function below is the scanner of the same name with one addition: the
first component of the result lists the positions handed to `deref`, in order.
The second component is the result of the scanner itself. -/

/-- The loop of `getNextWord`, logging the positions read. -/
def getNextWordLoopTraced (K : Classifier) (buf : List Char) (pEnd : Nat) :
    Nat → Nat → List Nat × Except Fault Nat
  | 0, _ => ([], .error .outOfFuel)
  | fuel + 1, pBuffer =>
    if !isEndOfBuffer pBuffer pEnd then
      match deref buf pBuffer with
      | .error f => ([pBuffer], .error f)
      | .ok c =>
        if !K.IsSpaceOrNewLine c || K.IsLineEnd c then ([pBuffer], .ok pBuffer)
        else
          (pBuffer :: (getNextWordLoopTraced K buf pEnd fuel (pBuffer + 1)).1,
            (getNextWordLoopTraced K buf pEnd fuel (pBuffer + 1)).2)
    else ([], .ok pBuffer)

/-- `getNextWord`, logging the positions read. -/
def getNextWordTraced (K : Classifier) (buf : List Char) (pBuffer pEnd : Nat) :
    List Nat × Except Fault Nat :=
  getNextWordLoopTraced K buf pEnd (buf.length + 1) pBuffer

/-- The loop of `getNextToken`, logging the positions read. -/
def getNextTokenLoopTraced (K : Classifier) (buf : List Char) (pEnd : Nat) :
    Nat → Nat → List Nat × Except Fault Nat
  | 0, _ => ([], .error .outOfFuel)
  | fuel + 1, pBuffer =>
    if !isEndOfBuffer pBuffer pEnd then
      match deref buf pBuffer with
      | .error f => ([pBuffer], .error f)
      | .ok c =>
        if K.IsSpaceOrNewLine c then ([pBuffer], .ok pBuffer)
        else
          (pBuffer :: (getNextTokenLoopTraced K buf pEnd fuel (pBuffer + 1)).1,
            (getNextTokenLoopTraced K buf pEnd fuel (pBuffer + 1)).2)
    else ([], .ok pBuffer)

/-- `getNextToken`, logging the positions read. -/
def getNextTokenTraced (K : Classifier) (buf : List Char) (pBuffer pEnd : Nat) :
    List Nat × Except Fault Nat :=
  match (getNextTokenLoopTraced K buf pEnd (buf.length + 1) pBuffer).2 with
  | .error f => ((getNextTokenLoopTraced K buf pEnd (buf.length + 1) pBuffer).1, .error f)
  | .ok p =>
    ((getNextTokenLoopTraced K buf pEnd (buf.length + 1) pBuffer).1 ++
        (getNextWordTraced K buf p pEnd).1,
      (getNextWordTraced K buf p pEnd).2)

/-- The first loop of `skipLine`, logging the positions read. -/
def lineScanLoopTraced (K : Classifier) (buf : List Char) (e : Nat) :
    Nat → Nat → List Nat × Except Fault Nat
  | 0, _ => ([], .error .outOfFuel)
  | fuel + 1, it =>
    if !isEndOfBuffer it e then
      match deref buf it with
      | .error f => ([it], .error f)
      | .ok c =>
        if !K.IsLineEnd c then
          (it :: (lineScanLoopTraced K buf e fuel (it + 1)).1,
            (lineScanLoopTraced K buf e fuel (it + 1)).2)
        else ([it], .ok it)
    else ([], .ok it)

/-- The indentation loop of `skipLine`, logging the positions read. -/
def indentLoopTraced (buf : List Char) (e : Nat) : Nat → Nat → List Nat × Except Fault Nat
  | 0, _ => ([], .error .outOfFuel)
  | fuel + 1, it =>
    if it ≠ e then
      match deref buf it with
      | .error f => ([it], .error f)
      | .ok c =>
        if c == '\t' || c == ' ' then
          (it :: (indentLoopTraced buf e fuel (it + 1)).1,
            (indentLoopTraced buf e fuel (it + 1)).2)
        else ([it], .ok it)
    else ([], .ok it)

/-- `skipLine`, logging the positions read. -/
def skipLineTraced (K : Classifier) (buf : List Char) (it e uiLine : Nat) :
    List Nat × Except Fault (Nat × Nat) :=
  if it ≥ e then ([], .ok (it, uiLine))
  else
    match (lineScanLoopTraced K buf e (buf.length + 1) it).2 with
    | .error f => ((lineScanLoopTraced K buf e (buf.length + 1) it).1, .error f)
    | .ok it1 =>
      let it2 := if it1 ≠ e then it1 + 1 else it1
      let uiLine2 := if it1 ≠ e then (uiLine + 1) % UINT_RANGE else uiLine
      match (indentLoopTraced buf e (buf.length + 1) it2).2 with
      | .error f =>
        ((lineScanLoopTraced K buf e (buf.length + 1) it).1 ++
          (indentLoopTraced buf e (buf.length + 1) it2).1, .error f)
      | .ok it3 =>
        ((lineScanLoopTraced K buf e (buf.length + 1) it).1 ++
          (indentLoopTraced buf e (buf.length + 1) it2).1, .ok (it3, uiLine2))

/-! ## The driver of the round trip over a buffer -/

/-- Repeats `skipLine` until the cursor equals the end sentinel; the result is
the final cursor and the final line counter. The budget counts the calls of
`skipLine` still allowed, plus one. -/
def skipLines (K : Classifier) (buf : List Char) : Nat → Nat → Nat → Except Fault (Nat × Nat)
  | 0, _, _ => .error .outOfFuel
  | fuel + 1, it, uiLine =>
    if it = buf.length then .ok (it, uiLine)
    else
      match skipLine K buf it buf.length uiLine with
      | .error f => .error f
      | .ok (it1, uiLine1) => skipLines K buf fuel it1 uiLine1

/-- The round trip: `skipLine` repeated from position `0` with the counter at
`0`, with budget for one call per character. -/
def skipAllLines (K : Classifier) (buf : List Char) : Except Fault (Nat × Nat) :=
  skipLines K buf (buf.length + 1) 0 0

/-- The buffer made of the given lines, each followed by a newline. -/
def joinLines : List (List Char) → List Char
  | [] => []
  | l :: ls => l ++ '\n' :: joinLines ls

/-- The number of line terminators at the positions from `it` on. -/
def terminatorsFrom (K : Classifier) (buf : List Char) (it : Nat) : Nat :=
  (buf.drop it).countP K.IsLineEnd

/-! ## Basic facts -/

theorem isEndOfBuffer_eq_true_iff (it e : Nat) :
    isEndOfBuffer it e = true ↔ (it = e ∨ it + 1 = e) := by
  unfold isEndOfBuffer
  by_cases h : it = e
  · simp [h]
  · simp only [h, if_false, decide_eq_true_eq, false_or]
    omega

theorem isEndOfBuffer_eq_false_iff (it e : Nat) :
    isEndOfBuffer it e = false ↔ (it ≠ e ∧ it + 1 ≠ e) := by
  rw [← Bool.not_eq_true, isEndOfBuffer_eq_true_iff]
  omega

theorem deref_eq_ok_iff (buf : List Char) (it : Nat) (c : Char) :
    deref buf it = .ok c ↔ buf[it]? = some c := by
  unfold deref
  cases h : buf[it]? <;> simp

theorem deref_of_lt (buf : List Char) (it : Nat) (h : it < buf.length) :
    deref buf it = .ok buf[it] := by
  rw [deref_eq_ok_iff]
  exact List.getElem?_eq_getElem h

/-- With enough budget a forward loop returns the first position at or after the
cursor that is at the boundary or whose character ends the loop. -/
theorem scanWhile_spec (cont : Char → Bool) (buf : List Char) :
    ∀ (fuel it : Nat), it ≤ buf.length → buf.length < fuel + it →
      ∃ p, scanWhile cont buf buf.length fuel it = .ok p ∧ it ≤ p ∧ p ≤ buf.length ∧
        (isEndOfBuffer p buf.length = true ∨ ∃ c, buf[p]? = some c ∧ cont c = false) ∧
        ∀ q, it ≤ q → q < p →
          isEndOfBuffer q buf.length = false ∧ ∃ c, buf[q]? = some c ∧ cont c = true := by
  intro fuel
  induction fuel with
  | zero => intro it h1 h2; omega
  | succ n ih =>
    intro it h1 h2
    unfold scanWhile
    by_cases hB : isEndOfBuffer it buf.length = true
    · refine ⟨it, by simp [hB], le_refl _, h1, Or.inl hB, ?_⟩
      intro q hq1 hq2; omega
    · have hB2 : isEndOfBuffer it buf.length = false := by simpa using hB
      have hlt := (isEndOfBuffer_eq_false_iff it buf.length).mp hB2
      have hit : it < buf.length := by omega
      simp only [hB2, Bool.not_false, if_true, deref_of_lt buf it hit]
      by_cases hc : cont buf[it] = true
      · simp only [hc, if_true]
        obtain ⟨p, hp, hp1, hp2, hp3, hp4⟩ := ih (it + 1) (by omega) (by omega)
        refine ⟨p, hp, by omega, hp2, hp3, ?_⟩
        intro q hq1 hq2
        by_cases hq : q = it
        · subst hq
          exact ⟨hB2, buf[q], List.getElem?_eq_getElem hit, hc⟩
        · exact hp4 q (by omega) hq2
      · have hc2 : cont buf[it] = false := by simpa using hc
        refine ⟨it, by simp [hc2], le_refl _, h1, Or.inr ⟨buf[it], List.getElem?_eq_getElem hit, hc2⟩, ?_⟩
        intro q hq1 hq2; omega

theorem getNextWordLoop_eq_scanWhile (K : Classifier) (buf : List Char) (e : Nat) :
    ∀ (fuel it : Nat), getNextWordLoop K buf e fuel it =
      scanWhile (fun c => K.IsSpaceOrNewLine c && !K.IsLineEnd c) buf e fuel it := by
  intro fuel
  induction fuel with
  | zero => intro it; rfl
  | succ n ih =>
    intro it
    unfold getNextWordLoop scanWhile
    split
    · cases hd : deref buf it with
      | error f => rfl
      | ok c =>
        simp only [ih]
        cases h1 : K.IsSpaceOrNewLine c <;> cases h2 : K.IsLineEnd c <;> simp
    · rfl

theorem getNextTokenLoop_eq_scanWhile (K : Classifier) (buf : List Char) (e : Nat) :
    ∀ (fuel it : Nat), getNextTokenLoop K buf e fuel it =
      scanWhile (fun c => !K.IsSpaceOrNewLine c) buf e fuel it := by
  intro fuel
  induction fuel with
  | zero => intro it; rfl
  | succ n ih =>
    intro it
    unfold getNextTokenLoop scanWhile
    split
    · cases hd : deref buf it with
      | error f => rfl
      | ok c =>
        simp only [ih]
        cases h1 : K.IsSpaceOrNewLine c <;> simp
    · rfl

theorem lineScanLoop_eq_scanWhile (K : Classifier) (buf : List Char) (e : Nat) :
    ∀ (fuel it : Nat), lineScanLoop K buf e fuel it =
      scanWhile (fun c => !K.IsLineEnd c) buf e fuel it := by
  intro fuel
  induction fuel with
  | zero => intro it; rfl
  | succ n ih =>
    intro it
    unfold lineScanLoop scanWhile
    split
    · cases hd : deref buf it with
      | error f => rfl
      | ok c => simp only [ih]
    · rfl

theorem wordScanLoop_eq_scanWhile (K : Classifier) (buf : List Char) (e : Nat) :
    ∀ (fuel it : Nat), wordScanLoop K buf e fuel it =
      scanWhile (fun c => !K.IsLineEnd c && !K.IsSpaceOrNewLine c) buf e fuel it := by
  intro fuel
  induction fuel with
  | zero => intro it; rfl
  | succ n ih =>
    intro it
    unfold wordScanLoop scanWhile
    split
    · cases hd : deref buf it with
      | error f => rfl
      | ok c => simp only [ih]
    · rfl

/-- With the end sentinel at `buf.length`, `getNextWord` returns the first
position at or after the cursor where its loop stops. -/
theorem getNextWord_ok (K : Classifier) (buf : List Char) (it : Nat) (h : it ≤ buf.length) :
    ∃ p, getNextWord K buf it buf.length = .ok p ∧ it ≤ p ∧ p ≤ buf.length ∧
      (isEndOfBuffer p buf.length = true ∨
        ∃ c, buf[p]? = some c ∧ (K.IsSpaceOrNewLine c = false ∨ K.IsLineEnd c = true)) ∧
      ∀ q, it ≤ q → q < p → isEndOfBuffer q buf.length = false ∧
        ∃ c, buf[q]? = some c ∧ K.IsSpaceOrNewLine c = true ∧ K.IsLineEnd c = false := by
  obtain ⟨p, hp, h1, h2, h3, h4⟩ :=
    scanWhile_spec (fun c => K.IsSpaceOrNewLine c && !K.IsLineEnd c) buf (buf.length + 1) it h
      (by omega)
  refine ⟨p, ?_, h1, h2, ?_, ?_⟩
  · unfold getNextWord
    rw [getNextWordLoop_eq_scanWhile]
    exact hp
  · rcases h3 with h3 | ⟨c, hc, hcc⟩
    · exact Or.inl h3
    · refine Or.inr ⟨c, hc, ?_⟩
      cases hs : K.IsSpaceOrNewLine c <;> cases hl : K.IsLineEnd c <;> simp_all
  · intro q hq1 hq2
    obtain ⟨hb, c, hc, hcc⟩ := h4 q hq1 hq2
    refine ⟨hb, c, hc, ?_⟩
    cases hs : K.IsSpaceOrNewLine c <;> cases hl : K.IsLineEnd c <;> simp_all

/-- With the end sentinel at `buf.length`, the first loop of `skipLine` and
`getName` returns the first position at or after the cursor that is at the
boundary or holds a line terminator. -/
theorem lineScanLoop_ok (K : Classifier) (buf : List Char) (it : Nat) (h : it ≤ buf.length) :
    ∃ p, lineScanLoop K buf buf.length (buf.length + 1) it = .ok p ∧ it ≤ p ∧ p ≤ buf.length ∧
      (isEndOfBuffer p buf.length = true ∨ ∃ c, buf[p]? = some c ∧ K.IsLineEnd c = true) ∧
      ∀ q, it ≤ q → q < p → isEndOfBuffer q buf.length = false ∧
        ∃ c, buf[q]? = some c ∧ K.IsLineEnd c = false := by
  obtain ⟨p, hp, h1, h2, h3, h4⟩ :=
    scanWhile_spec (fun c => !K.IsLineEnd c) buf (buf.length + 1) it h (by omega)
  refine ⟨p, ?_, h1, h2, ?_, ?_⟩
  · rw [lineScanLoop_eq_scanWhile]
    exact hp
  · rcases h3 with h3 | ⟨c, hc, hcc⟩
    · exact Or.inl h3
    · exact Or.inr ⟨c, hc, by simpa using hcc⟩
  · intro q hq1 hq2
    obtain ⟨hb, c, hc, hcc⟩ := h4 q hq1 hq2
    exact ⟨hb, c, hc, by simpa using hcc⟩

/-- A cursor strictly before the end sentinel is still strictly before it after
the first loop of `skipLine`. -/
theorem lineScanLoop_lt (K : Classifier) (buf : List Char) (it p : Nat) (h : it < buf.length)
    (hp : lineScanLoop K buf buf.length (buf.length + 1) it = .ok p) : it ≤ p ∧ p < buf.length := by
  obtain ⟨p2, hp2, h1, h2, _, h4⟩ := lineScanLoop_ok K buf it (le_of_lt h)
  rw [hp] at hp2
  cases hp2
  refine ⟨h1, ?_⟩
  by_contra hlt
  have hp3 : p = buf.length := by omega
  have := (h4 (buf.length - 1) (by omega) (by omega)).1
  rw [isEndOfBuffer_eq_false_iff] at this
  omega

/-- With enough budget the indentation loop of `skipLine` returns the first
position at or after the cursor that is the end sentinel or holds a character
other than tab and space. -/
theorem indentLoop_spec (buf : List Char) :
    ∀ (fuel it : Nat), it ≤ buf.length → buf.length < fuel + it →
      ∃ q, indentLoop buf buf.length fuel it = .ok q ∧ it ≤ q ∧ q ≤ buf.length ∧
        (q = buf.length ∨ ∃ c, buf[q]? = some c ∧ c ≠ '\t' ∧ c ≠ ' ') ∧
        ∀ r, it ≤ r → r < q → ∃ c, buf[r]? = some c ∧ (c = '\t' ∨ c = ' ') := by
  intro fuel
  induction fuel with
  | zero => intro it h1 h2; omega
  | succ n ih =>
    intro it h1 h2
    unfold indentLoop
    by_cases hE : it = buf.length
    · refine ⟨it, by simp [hE], le_refl _, h1, Or.inl hE, ?_⟩
      intro r hr1 hr2; omega
    · have hit : it < buf.length := by omega
      simp only [ne_eq, hE, not_false_eq_true, if_true, deref_of_lt buf it hit]
      by_cases hc : buf[it] = '\t' ∨ buf[it] = ' '
      · have hc2 : (buf[it] == '\t' || buf[it] == ' ') = true := by simpa using hc
        simp only [hc2, if_true]
        obtain ⟨q, hq, hq1, hq2, hq3, hq4⟩ := ih (it + 1) (by omega) (by omega)
        refine ⟨q, hq, by omega, hq2, hq3, ?_⟩
        intro r hr1 hr2
        by_cases hr : r = it
        · subst hr
          exact ⟨buf[r], List.getElem?_eq_getElem hit, hc⟩
        · exact hq4 r (by omega) hr2
      · have hc2 : (buf[it] == '\t' || buf[it] == ' ') = false := by simpa using hc
        refine ⟨it, by simp [hc2], le_refl _, h1, Or.inr ⟨buf[it], List.getElem?_eq_getElem hit, ?_⟩, ?_⟩
        · exact not_or.mp hc
        · intro r hr1 hr2; omega

theorem lt_of_no_boundary (len it p : Nat) (h : it < len) (hp : p ≤ len)
    (hrun : ∀ q, it ≤ q → q < p → isEndOfBuffer q len = false) : p < len := by
  by_contra hlt
  have := hrun (len - 1) (by omega) (by omega)
  rw [isEndOfBuffer_eq_false_iff] at this
  omega

theorem rangeString_length (buf : List Char) (w s : Nat) (hs : s ≤ buf.length) :
    (rangeString buf w s).length = s - w := by
  unfold rangeString
  simp
  omega

theorem rangeString_getElem? (buf : List Char) (w s j : Nat) (hj : j < s - w) :
    (rangeString buf w s)[j]? = buf[w + j]? := by
  unfold rangeString
  rw [List.getElem?_take_of_lt hj, List.getElem?_drop]

/-- The copy loop of `CopyNextWord`, started with `index + 1 < length` on a run
of content `[it, s)` that ends at a readable position `s`: it stores the first
`min (s - it) (length - 1 - index)` characters of the run from `index` on, inside
the destination, and leaves the earlier destination entries alone. -/
theorem copyLoop_spec (K : Classifier) (buf : List Char) (length : Nat) :
    ∀ (fuel it index : Nat) (pBuffer : List Char) (s : Nat),
      it ≤ s → s < buf.length →
      (∀ q, it ≤ q → q < s → isEndOfBuffer q buf.length = false ∧
        ∃ c, buf[q]? = some c ∧ K.IsSpaceOrNewLine c = false) →
      (isEndOfBuffer s buf.length = true ∨ ∃ c, buf[s]? = some c ∧ K.IsSpaceOrNewLine c = true) →
      index + 1 < length → pBuffer.length = length → s - it < fuel →
      ∃ it1 out, CopyNextWordLoop K buf buf.length length fuel it index pBuffer =
          .ok (it1, index + min (s - it) (length - 1 - index), out) ∧
        out.length = length ∧ (∀ j, j < index → out[j]? = pBuffer[j]?) ∧
        ∀ j, j < min (s - it) (length - 1 - index) → out[index + j]? = buf[it + j]? := by
  intro fuel
  induction fuel with
  | zero => intro it index pBuffer s h1 h2 h3 h4 h5 h6 h7; omega
  | succ n ih =>
    intro it index pBuffer s h1 h2 hrun hstop hidx hlen hfuel
    have hit : it < buf.length := by omega
    unfold CopyNextWordLoop
    simp only [deref_of_lt buf it hit]
    by_cases hs : it = s
    · subst hs
      have hcond : (!K.IsSpaceOrNewLine buf[it] && !isEndOfBuffer it buf.length) = false := by
        rcases hstop with hb | ⟨c, hc, hcc⟩
        · simp [hb]
        · rw [List.getElem?_eq_getElem hit] at hc
          cases hc
          simp [hcc]
      refine ⟨it, pBuffer, by simp [hcond], hlen, fun j _ => rfl, ?_⟩
      intro j hj
      simp at hj
    · obtain ⟨hb, c, hc, hcc⟩ := hrun it (le_refl _) (by omega)
      rw [List.getElem?_eq_getElem hit] at hc
      cases hc
      have hcond : (!K.IsSpaceOrNewLine buf[it] && !isEndOfBuffer it buf.length) = true := by
        simp [hb, hcc]
      have hst : store pBuffer index buf[it] = .ok (pBuffer.set index buf[it]) := by
        unfold store
        simp [hlen]
        omega
      simp only [hcond, if_true, hst]
      by_cases hbrk : index + 1 = length - 1
      · refine ⟨it, pBuffer.set index buf[it], ?_, by simp [hlen], ?_, ?_⟩
        · have : min (s - it) (length - 1 - index) = 1 := by omega
          simp [hbrk, this]
        · intro j hj
          rw [List.getElem?_set_ne (by omega)]
        · intro j hj
          have hj0 : j = 0 := by omega
          subst hj0
          show (pBuffer.set index buf[it])[index]? = buf[it]?
          rw [List.getElem?_set_self (by omega), List.getElem?_eq_getElem hit]
      · obtain ⟨it1, out, ho, hol, hpre, hcopy⟩ :=
          ih (it + 1) (index + 1) (pBuffer.set index buf[it]) s (by omega) h2
            (fun q hq1 hq2 => hrun q (by omega) hq2) hstop (by omega) (by simp [hlen]) (by omega)
        have hk : index + 1 + min (s - (it + 1)) (length - 1 - (index + 1)) =
            index + min (s - it) (length - 1 - index) := by omega
        refine ⟨it1, out, ?_, hol, ?_, ?_⟩
        · simp only [hbrk, if_false, ho, hk]
        · intro j hj
          rw [hpre j (by omega), List.getElem?_set_ne (by omega)]
        · intro j hj
          by_cases hj0 : j = 0
          · subst hj0
            have e := hpre index (by omega)
            rw [List.getElem?_set_self (by omega)] at e
            exact e.trans (List.getElem?_eq_getElem hit).symm
          · have := hcopy (j - 1) (by omega)
            have e1 : index + 1 + (j - 1) = index + j := by omega
            have e2 : it + 1 + (j - 1) = it + j := by omega
            rw [e1, e2] at this
            exact this

/-- With enough budget the loop that comes back to the start returns the larger
of the cursor and the recorded start. -/
theorem backToStartLoop_spec (pStart : Nat) :
    ∀ (fuel it : Nat), pStart - it < fuel →
      backToStartLoop pStart fuel it = .ok (max it pStart) := by
  intro fuel
  induction fuel with
  | zero => intro it h; omega
  | succ n ih =>
    intro it h
    unfold backToStartLoop
    by_cases hlt : it < pStart
    · rw [if_pos hlt, ih (it + 1) (by omega)]
      congr 1
      omega
    · rw [if_neg hlt]
      congr 1
      omega

/-- When some position at or before the cursor holds content, the backward
loop of `getNameNoSpace` returns the last such position. -/
theorem trimSeparatorLoop_spec (K : Classifier) (buf : List Char) :
    ∀ (fuel it q0 : Nat), q0 ≤ it → it ≤ buf.length → it < fuel + q0 → isContentAt K buf q0 →
      ∃ q, trimSeparatorLoop K buf buf.length fuel it = .ok q ∧ q0 ≤ q ∧ q ≤ it ∧
        isContentAt K buf q ∧ ∀ r, q < r → r ≤ it → ¬ isContentAt K buf r := by
  intro fuel
  induction fuel with
  | zero => intro it q0 h1 h2 h3; omega
  | succ n ih =>
    intro it q0 h1 h2 h3 hq0
    unfold trimSeparatorLoop
    by_cases hc : isContentAt K buf it
    · obtain ⟨hb, c, hcc, hl, hs⟩ := hc
      refine ⟨it, ?_, h1, le_refl _, ⟨hb, c, hcc, hl, hs⟩, fun r hr1 hr2 => by omega⟩
      have hd : deref buf it = .ok c := (deref_eq_ok_iff buf it c).mpr hcc
      simp [hb, hd, hl, hs]
    · have hne : q0 ≠ it := fun e => hc (e ▸ hq0)
      have hpos : it ≠ 0 := by omega
      have hdec : decrement it = .ok (it - 1) := by simp [decrement, hpos]
      obtain ⟨q, hq, hq1, hq2, hq3, hq4⟩ := ih (it - 1) q0 (by omega) (by omega) (by omega) hq0
      have hrest : ∀ r, q < r → r ≤ it → ¬ isContentAt K buf r := by
        intro r hr1 hr2
        by_cases hr : r = it
        · rw [hr]; exact hc
        · exact hq4 r hr1 (by omega)
      refine ⟨q, ?_, hq1, by omega, hq3, hrest⟩
      by_cases hb : isEndOfBuffer it buf.length = true
      · simp [hb, hdec, hq]
      · have hb2 : isEndOfBuffer it buf.length = false := by simpa using hb
        have hlt := (isEndOfBuffer_eq_false_iff it buf.length).mp hb2
        have hit : it < buf.length := by omega
        have hsep : (K.IsLineEnd buf[it] || K.IsSpaceOrNewLine buf[it]) = true := by
          by_contra hn
          apply hc
          refine ⟨hb2, buf[it], List.getElem?_eq_getElem hit, ?_, ?_⟩
          · cases h : K.IsLineEnd buf[it] <;> simp_all
          · cases h : K.IsSpaceOrNewLine buf[it] <;> simp_all
        simp only [hb2, deref_of_lt buf it hit, hsep, hdec, if_true, hq]
        simp

theorem name_of_strName (strName : List Char) :
    (if !strName.isEmpty then strName else ([] : List Char)) = strName := by
  cases strName <;> rfl

/-- When some position at or before the cursor holds content (the cursor
itself, when it stands on a token), `getNameNoSpace` returns the position `p`
just past the run of content that starts at the cursor, and the name is the
run `[it, p)`; the name is empty when the cursor stands on a separator. -/
theorem getNameNoSpace_ok (K : Classifier) (buf : List Char) (it : Nat) (name : List Char)
    (h : it ≤ buf.length) (hB : isEndOfBuffer it buf.length = false)
    (hq0 : ∃ q0, q0 ≤ it ∧ isContentAt K buf q0) :
    ∃ p, getNameNoSpace K buf it buf.length name = .ok (p, rangeString buf it p) ∧
      it ≤ p ∧ p ≤ buf.length ∧ (∀ q, it ≤ q → q < p → isContentAt K buf q) ∧
      ¬ isContentAt K buf p := by
  obtain ⟨p, hp, hp1, hp2, hp3, hp4⟩ :=
    scanWhile_spec (fun c => !K.IsLineEnd c && !K.IsSpaceOrNewLine c) buf (buf.length + 1) it h
      (by omega)
  have hrun : ∀ q, it ≤ q → q < p → isContentAt K buf q := by
    intro q h1 h2
    obtain ⟨hb, c, hc, hcc⟩ := hp4 q h1 h2
    refine ⟨hb, c, hc, ?_, ?_⟩
    · cases hl : K.IsLineEnd c <;> simp_all
    · cases hs : K.IsSpaceOrNewLine c <;> simp_all
  have hstop : ¬ isContentAt K buf p := by
    rintro ⟨hb, c, hc, hl, hs⟩
    rcases hp3 with hb2 | ⟨c2, hc2, hcc2⟩
    · rw [hb] at hb2
      cases hb2
    · rw [hc] at hc2
      cases hc2
      simp [hl, hs] at hcc2
  obtain ⟨q0, hq01, hq02⟩ := hq0
  have hstart : ∃ q1, q1 ≤ p ∧ isContentAt K buf q1 ∧ (it < p → q1 = p - 1) := by
    by_cases hlt : it < p
    · exact ⟨p - 1, by omega, hrun (p - 1) (by omega) (by omega), fun _ => rfl⟩
    · exact ⟨q0, by omega, hq02, fun hh => absurd hh hlt⟩
  obtain ⟨q1, hq11, hq12, hq13⟩ := hstart
  obtain ⟨q, hq, hqa, hqb, hqc, _⟩ :=
    trimSeparatorLoop_spec K buf (p + 1) p q1 hq11 hp2 (by omega) hq12
  have hqp : q ≠ p := fun e => hstop (e ▸ hqc)
  have hmax : max (q + 1) it = p := by
    by_cases hlt : it < p
    · have := hq13 hlt
      omega
    · omega
  refine ⟨p, ?_, hp1, hp2, hrun, hstop⟩
  unfold getNameNoSpace
  rw [wordScanLoop_eq_scanWhile, hp]
  simp only [hB, hq, backToStartLoop_spec it (it + 1) (q + 1) (by omega), hmax, name_of_strName]
  simp

/-! ## The step budgets suffice -/

theorem deref_error (buf : List Char) (it : Nat) (f : Fault) (h : deref buf it = .error f) :
    f = .readOutOfRange := by
  unfold deref at h
  cases hb : buf[it]? <;> simp [hb] at h
  exact h.symm

theorem deref_ok_lt (buf : List Char) (it : Nat) (c : Char) (h : deref buf it = .ok c) :
    it < buf.length := by
  rw [deref_eq_ok_iff] at h
  exact (List.getElem?_eq_some.mp h).1

theorem decrement_cases (it : Nat) :
    (it = 0 ∧ decrement it = .error .cursorBeforeBuffer) ∨ (0 < it ∧ decrement it = .ok (it - 1)) := by
  unfold decrement
  by_cases h : it = 0
  · exact Or.inl ⟨h, by simp [h]⟩
  · exact Or.inr ⟨by omega, by simp [h]⟩

theorem scanWhile_fuel (cont : Char → Bool) (buf : List Char) (e : Nat) :
    ∀ (fuel it : Nat), buf.length - it < fuel →
      scanWhile cont buf e fuel it ≠ .error .outOfFuel := by
  intro fuel
  induction fuel with
  | zero => intro it h; omega
  | succ n ih =>
    intro it h
    unfold scanWhile
    split
    · cases hd : deref buf it with
      | error f =>
        have := deref_error buf it f hd
        subst this
        simp
      | ok c =>
        have := deref_ok_lt buf it c hd
        by_cases hc : cont c = true
        · simp only [hc, if_true]
          exact ih (it + 1) (by omega)
        · simp [hc]
    · simp

theorem indentLoop_fuel (buf : List Char) (e : Nat) :
    ∀ (fuel it : Nat), buf.length - it < fuel → indentLoop buf e fuel it ≠ .error .outOfFuel := by
  intro fuel
  induction fuel with
  | zero => intro it h; omega
  | succ n ih =>
    intro it h
    unfold indentLoop
    split
    · cases hd : deref buf it with
      | error f =>
        have := deref_error buf it f hd
        subst this
        simp
      | ok c =>
        have := deref_ok_lt buf it c hd
        by_cases hc : (c == '\t' || c == ' ') = true
        · simp only [hc, if_true]
          exact ih (it + 1) (by omega)
        · simp only [hc]
          simp
    · simp

theorem trimSpaceLoop_fuel (K : Classifier) (buf : List Char) :
    ∀ (fuel it : Nat), it < fuel → trimSpaceLoop K buf fuel it ≠ .error .outOfFuel := by
  intro fuel
  induction fuel with
  | zero => intro it h; omega
  | succ n ih =>
    intro it h
    unfold trimSpaceLoop
    cases hd : deref buf it with
    | error f =>
      have := deref_error buf it f hd
      subst this
      simp
    | ok c =>
      by_cases hc : K.IsSpace c = true
      · rcases decrement_cases it with ⟨_, hdec⟩ | ⟨hpos, hdec⟩
        · simp [hc, hdec]
        · simp only [hc, if_true, hdec]
          exact ih (it - 1) (by omega)
      · simp [hc]

theorem trimSeparatorLoop_fuel (K : Classifier) (buf : List Char) (e : Nat) :
    ∀ (fuel it : Nat), it < fuel → trimSeparatorLoop K buf e fuel it ≠ .error .outOfFuel := by
  intro fuel
  induction fuel with
  | zero => intro it h; omega
  | succ n ih =>
    intro it h
    unfold trimSeparatorLoop
    split
    · rcases decrement_cases it with ⟨_, hdec⟩ | ⟨hpos, hdec⟩
      · simp [hdec]
      · simp only [hdec]
        exact ih (it - 1) (by omega)
    · cases hd : deref buf it with
      | error f =>
        have := deref_error buf it f hd
        subst this
        simp
      | ok c =>
        by_cases hc : (K.IsLineEnd c || K.IsSpaceOrNewLine c) = true
        · rcases decrement_cases it with ⟨_, hdec⟩ | ⟨hpos, hdec⟩
          · simp [hc, hdec]
          · simp only [hc, if_true, hdec]
            exact ih (it - 1) (by omega)
        · simp only [hc]
          simp

theorem CopyNextWordLoop_fuel (K : Classifier) (buf : List Char) (e length : Nat) :
    ∀ (fuel it index : Nat) (pBuffer : List Char), buf.length - it < fuel →
      CopyNextWordLoop K buf e length fuel it index pBuffer ≠ .error .outOfFuel := by
  intro fuel
  induction fuel with
  | zero => intro it index pBuffer h; omega
  | succ n ih =>
    intro it index pBuffer h
    unfold CopyNextWordLoop
    cases hd : deref buf it with
    | error f =>
      have := deref_error buf it f hd
      subst this
      simp
    | ok c =>
      have := deref_ok_lt buf it c hd
      by_cases hc : (!K.IsSpaceOrNewLine c && !isEndOfBuffer it e) = true
      · simp only [hc, if_true]
        unfold store
        by_cases hi : index < pBuffer.length
        · simp only [hi, if_true]
          by_cases hb : index + 1 = length - 1
          · simp [hb]
          · simp only [hb, if_false]
            exact ih (it + 1) (index + 1) _ (by omega)
        · simp [hi]
      · simp only [hc]
        simp

/-- The step budget of `getNextWord` is never exhausted, whatever the cursor and
the end sentinel are. -/
theorem getNextWord_fuel (K : Classifier) (buf : List Char) (it e : Nat) :
    getNextWord K buf it e ≠ .error .outOfFuel := by
  unfold getNextWord
  rw [getNextWordLoop_eq_scanWhile]
  exact scanWhile_fuel _ buf e _ it (by omega)

/-- The step budgets of `getNextToken` are never exhausted. -/
theorem getNextToken_fuel (K : Classifier) (buf : List Char) (it e : Nat) :
    getNextToken K buf it e ≠ .error .outOfFuel := by
  unfold getNextToken
  have h1 := scanWhile_fuel (fun c => !K.IsSpaceOrNewLine c) buf e (buf.length + 1) it (by omega)
  rw [getNextTokenLoop_eq_scanWhile]
  cases hs : scanWhile (fun c => !K.IsSpaceOrNewLine c) buf e (buf.length + 1) it with
  | error f =>
    rw [hs] at h1
    simpa using h1
  | ok p => exact getNextWord_fuel K buf p e

/-- The step budgets of `skipLine` are never exhausted. -/
theorem skipLine_fuel (K : Classifier) (buf : List Char) (it e n : Nat) :
    skipLine K buf it e n ≠ .error .outOfFuel := by
  unfold skipLine
  split
  · simp
  · have h1 := scanWhile_fuel (fun c => !K.IsLineEnd c) buf e (buf.length + 1) it (by omega)
    rw [lineScanLoop_eq_scanWhile]
    cases hs : scanWhile (fun c => !K.IsLineEnd c) buf e (buf.length + 1) it with
    | error f =>
      rw [hs] at h1
      simpa using h1
    | ok it1 =>
      simp only []
      have h2 := indentLoop_fuel buf e (buf.length + 1) (if it1 ≠ e then it1 + 1 else it1)
        (by omega)
      cases hi : indentLoop buf e (buf.length + 1) (if it1 ≠ e then it1 + 1 else it1) with
      | error f =>
        rw [hi] at h2
        simpa using h2
      | ok it3 => simp

/-- The step budgets of `getName` are never exhausted. -/
theorem getName_fuel (K : Classifier) (buf : List Char) (it e : Nat) (name : List Char) :
    getName K buf it e name ≠ .error .outOfFuel := by
  unfold getName
  simp only []
  split
  · simp
  · have h1 := scanWhile_fuel (fun c => !K.IsLineEnd c) buf e (buf.length + 1) it (by omega)
    rw [lineScanLoop_eq_scanWhile]
    cases hs : scanWhile (fun c => !K.IsLineEnd c) buf e (buf.length + 1) it with
    | error f =>
      rw [hs] at h1
      simpa using h1
    | ok it1 =>
      simp only []
      have h2 := trimSpaceLoop_fuel K buf (it1 + 1) it1 (by omega)
      cases ht : trimSpaceLoop K buf (it1 + 1) it1 with
      | error f =>
        rw [ht] at h2
        simpa using h2
      | ok it2 =>
        simp only [backToStartLoop_spec it (it + 1) it2 (by omega)]
        simp

/-- The step budgets of `getNameNoSpace` are never exhausted. -/
theorem getNameNoSpace_fuel (K : Classifier) (buf : List Char) (it e : Nat) (name : List Char) :
    getNameNoSpace K buf it e name ≠ .error .outOfFuel := by
  unfold getNameNoSpace
  simp only []
  split
  · simp
  · have h1 := scanWhile_fuel (fun c => !K.IsLineEnd c && !K.IsSpaceOrNewLine c) buf e
      (buf.length + 1) it (by omega)
    rw [wordScanLoop_eq_scanWhile]
    cases hs : scanWhile (fun c => !K.IsLineEnd c && !K.IsSpaceOrNewLine c) buf e
        (buf.length + 1) it with
    | error f =>
      rw [hs] at h1
      simpa using h1
    | ok it1 =>
      simp only []
      have h2 := trimSeparatorLoop_fuel K buf e (it1 + 1) it1 (by omega)
      cases ht : trimSeparatorLoop K buf e (it1 + 1) it1 with
      | error f =>
        rw [ht] at h2
        simpa using h2
      | ok it2 =>
        simp only [backToStartLoop_spec it (it + 1) (it2 + 1) (by omega)]
        simp

/-- The step budgets of `CopyNextWord` are never exhausted. -/
theorem CopyNextWord_fuel (K : Classifier) (buf : List Char) (it e : Nat) (pBuffer : List Char)
    (length : Nat) : CopyNextWord K buf it e pBuffer length ≠ .error .outOfFuel := by
  unfold CopyNextWord
  have h1 := getNextWord_fuel K buf it e
  cases hw : getNextWord K buf it e with
  | error f =>
    rw [hw] at h1
    simpa using h1
  | ok it1 =>
    simp only []
    have h2 := CopyNextWordLoop_fuel K buf e length (buf.length + 1) it1 0 pBuffer (by omega)
    cases hl : CopyNextWordLoop K buf e length (buf.length + 1) it1 0 pBuffer with
    | error f =>
      rw [hl] at h2
      simpa using h2
    | ok r =>
      obtain ⟨it2, index, pBuffer1⟩ := r
      simp only []
      unfold store
      by_cases hi : index < pBuffer1.length
      · simp [hi]
      · simp [hi]

/-- For a cursor at or before the end sentinel the step budget of `hasLineEnd`
is enough: the call returns an answer. -/
theorem hasLineEndLoop_total (P : Nat → Bool) (e : Nat) :
    ∀ (fuel it : Nat), it ≤ e → e < fuel + it → ∃ b, hasLineEndLoop P e fuel it = .ok b := by
  intro fuel
  induction fuel with
  | zero => intro it h1 h2; omega
  | succ n ih =>
    intro it h1 h2
    unfold hasLineEndLoop
    by_cases hB : isEndOfBuffer it e = true
    · exact ⟨false, by simp [hB]⟩
    · have hB2 : isEndOfBuffer it e = false := by simpa using hB
      have := (isEndOfBuffer_eq_false_iff it e).mp hB2
      by_cases hP : P (it + 1) = true
      · exact ⟨true, by simp [hB2, hP]⟩
      · obtain ⟨b, hb⟩ := ih (it + 1) (by omega) (by omega)
        exact ⟨b, by simp [hB2, hP, hb]⟩

/-! ## Boundary check -/

/-- C1: for every cursor `it ≤ end`, `isEndOfBuffer it end` is true exactly when
`it = end` or `it` is the position just before `end`, and it is false at every
position strictly before that one. -/
theorem isEndOfBuffer_boundary (it e : Nat) (h : it ≤ e) :
    (isEndOfBuffer it e = true ↔ (it = e ∨ it + 1 = e)) ∧
      (it + 1 < e → isEndOfBuffer it e = false) := by
  refine ⟨isEndOfBuffer_eq_true_iff it e, ?_⟩
  intro h1
  rw [isEndOfBuffer_eq_false_iff]
  omega

theorem isEndOfBuffer_boundary_witness :
    (1 : Nat) ≤ 2 ∧ ((isEndOfBuffer 1 2 = true ↔ ((1 : Nat) = 2 ∨ 1 + 1 = 2)) ∧
      (1 + 1 < 2 → isEndOfBuffer 1 2 = false)) :=
  ⟨by decide, isEndOfBuffer_boundary 1 2 (by decide)⟩

/-! ## Word and token scanners -/

/-- C7: for every cursor `it ≤ end`, `getNextWord` returns the first position
`p ≥ it` that is at the boundary, or whose character is not a separator, or
whose character is a line terminator; every character of `[it, p)` is a
separator that is not a line terminator, so no line terminator is stepped
over. -/
theorem getNextWord_first_stop (K : Classifier) (buf : List Char) (it : Nat)
    (h : it ≤ buf.length) :
    ∃ p, getNextWord K buf it buf.length = .ok p ∧ it ≤ p ∧ p ≤ buf.length ∧
      (isEndOfBuffer p buf.length = true ∨
        ∃ c, buf[p]? = some c ∧ (K.IsSpaceOrNewLine c = false ∨ K.IsLineEnd c = true)) ∧
      ∀ q, it ≤ q → q < p → isEndOfBuffer q buf.length = false ∧
        ∃ c, buf[q]? = some c ∧ K.IsSpaceOrNewLine c = true ∧ K.IsLineEnd c = false :=
  getNextWord_ok K buf it h

theorem getNextWord_first_stop_witness :
    (0 : Nat) ≤ [' ', '\t', 'v', ' ', '1', '\n'].length ∧
    ∃ p, getNextWord specClassifier [' ', '\t', 'v', ' ', '1', '\n'] 0
        [' ', '\t', 'v', ' ', '1', '\n'].length = .ok p ∧ 0 ≤ p ∧
      p ≤ [' ', '\t', 'v', ' ', '1', '\n'].length ∧
      (isEndOfBuffer p [' ', '\t', 'v', ' ', '1', '\n'].length = true ∨
        ∃ c, [' ', '\t', 'v', ' ', '1', '\n'][p]? = some c ∧
          (specClassifier.IsSpaceOrNewLine c = false ∨ specClassifier.IsLineEnd c = true)) ∧
      ∀ q, 0 ≤ q → q < p → isEndOfBuffer q [' ', '\t', 'v', ' ', '1', '\n'].length = false ∧
        ∃ c, [' ', '\t', 'v', ' ', '1', '\n'][q]? = some c ∧
          specClassifier.IsSpaceOrNewLine c = true ∧ specClassifier.IsLineEnd c = false :=
  ⟨by decide, getNextWord_first_stop specClassifier [' ', '\t', 'v', ' ', '1', '\n'] 0 (by decide)⟩

/-- C8: for every cursor `it ≤ end`, the characters `getNextToken` steps over
are a run `[it, m)` of non-separator characters followed by a run `[m, r)` of
separators none of which is a line terminator, so one call skips at most one
token; the result `r` is at the boundary, on a line terminator, or on a
non-separator character that follows a skipped separator, the first character
of the next token. -/
theorem getNextToken_one_token (K : Classifier) (buf : List Char) (it : Nat)
    (h : it ≤ buf.length) :
    ∃ m r, getNextToken K buf it buf.length = .ok r ∧ it ≤ m ∧ m ≤ r ∧ r ≤ buf.length ∧
      (∀ q, it ≤ q → q < m → ∃ c, buf[q]? = some c ∧ K.IsSpaceOrNewLine c = false) ∧
      (∀ q, m ≤ q → q < r →
        ∃ c, buf[q]? = some c ∧ K.IsSpaceOrNewLine c = true ∧ K.IsLineEnd c = false) ∧
      (isEndOfBuffer r buf.length = true ∨
        (∃ c, buf[r]? = some c ∧ K.IsLineEnd c = true) ∨
        (∃ c, buf[r]? = some c ∧ K.IsSpaceOrNewLine c = false ∧ m < r)) := by
  obtain ⟨m, hm, hm1, hm2, hm3, hm4⟩ :=
    scanWhile_spec (fun c => !K.IsSpaceOrNewLine c) buf (buf.length + 1) it h (by omega)
  obtain ⟨r, hr, hr1, hr2, hr3, hr4⟩ := getNextWord_ok K buf m hm2
  refine ⟨m, r, ?_, hm1, hr1, hr2, ?_, ?_, ?_⟩
  · unfold getNextToken
    rw [getNextTokenLoop_eq_scanWhile, hm]
    exact hr
  · intro q hq1 hq2
    obtain ⟨_, c, hc, hcc⟩ := hm4 q hq1 hq2
    exact ⟨c, hc, by simpa using hcc⟩
  · intro q hq1 hq2
    exact (hr4 q hq1 hq2).2
  · rcases hr3 with hb | ⟨c, hc, hs | hl⟩
    · exact Or.inl hb
    · by_cases hmr : m = r
      · subst hmr
        rcases hm3 with hb | ⟨c2, hc2, hcc2⟩
        · exact Or.inl hb
        · rw [hc] at hc2
          cases hc2
          simp [hs] at hcc2
      · exact Or.inr (Or.inr ⟨c, hc, hs, by omega⟩)
    · exact Or.inr (Or.inl ⟨c, hc, hl⟩)

theorem getNextToken_one_token_witness :
    (0 : Nat) ≤ ['v', 'n', ' ', ' ', '1', ' ', '2', '\n'].length ∧
    ∃ m r, getNextToken specClassifier ['v', 'n', ' ', ' ', '1', ' ', '2', '\n'] 0
        ['v', 'n', ' ', ' ', '1', ' ', '2', '\n'].length = .ok r ∧ 0 ≤ m ∧ m ≤ r ∧
      r ≤ ['v', 'n', ' ', ' ', '1', ' ', '2', '\n'].length ∧
      (∀ q, 0 ≤ q → q < m → ∃ c, ['v', 'n', ' ', ' ', '1', ' ', '2', '\n'][q]? = some c ∧
        specClassifier.IsSpaceOrNewLine c = false) ∧
      (∀ q, m ≤ q → q < r → ∃ c, ['v', 'n', ' ', ' ', '1', ' ', '2', '\n'][q]? = some c ∧
        specClassifier.IsSpaceOrNewLine c = true ∧ specClassifier.IsLineEnd c = false) ∧
      (isEndOfBuffer r ['v', 'n', ' ', ' ', '1', ' ', '2', '\n'].length = true ∨
        (∃ c, ['v', 'n', ' ', ' ', '1', ' ', '2', '\n'][r]? = some c ∧
          specClassifier.IsLineEnd c = true) ∨
        (∃ c, ['v', 'n', ' ', ' ', '1', ' ', '2', '\n'][r]? = some c ∧
          specClassifier.IsSpaceOrNewLine c = false ∧ m < r)) :=
  ⟨by decide,
    getNextToken_one_token specClassifier ['v', 'n', ' ', ' ', '1', ' ', '2', '\n'] 0 (by decide)⟩

/-! ## Line skipper -/

/-- C2, as the code has it: for every cursor `it ≤ end` and every counter value
`n`, `skipLine` leaves the line counter at `n + 1` (reduced modulo the range of
`unsigned int`) whenever the cursor is strictly before `end`, with or without a
line terminator in `[it, end)`, and at `n` when the cursor is at `end`. -/
theorem skipLine_counter (K : Classifier) (buf : List Char) (it n : Nat)
    (h : it ≤ buf.length) :
    ∃ q, skipLine K buf it buf.length n =
      .ok (q, if it < buf.length then (n + 1) % UINT_RANGE else n) := by
  unfold skipLine
  by_cases hE : it ≥ buf.length
  · exact ⟨it, by simp [hE, Nat.not_lt.mpr hE]⟩
  · have hlt : it < buf.length := by omega
    obtain ⟨p, hp, _⟩ := lineScanLoop_ok K buf it h
    obtain ⟨_, hp2⟩ := lineScanLoop_lt K buf it p hlt hp
    have hne : p ≠ buf.length := by omega
    obtain ⟨q, hq, _⟩ := indentLoop_spec buf (buf.length + 1) (p + 1) (by omega) (by omega)
    exact ⟨q, by simp [hE, hp, hne, hq, hlt]⟩

theorem skipLine_counter_witness :
    (0 : Nat) ≤ ['a', 'b', 'c'].length ∧
    ∃ q, skipLine specClassifier ['a', 'b', 'c'] 0 ['a', 'b', 'c'].length 7 =
      .ok (q, if 0 < ['a', 'b', 'c'].length then (7 + 1) % UINT_RANGE else 7) :=
  ⟨by decide, skipLine_counter specClassifier ['a', 'b', 'c'] 0 7 (by decide)⟩

/-- C2, as stated, fails: the buffer `abc` holds no line terminator, and
`skipLine` from its first position still moves the counter from `7` to `8`. -/
theorem skipLine_counter_counterexample :
    (∀ q c, q < ['a', 'b', 'c'].length → ['a', 'b', 'c'][q]? = some c →
      specClassifier.IsLineEnd c = false) ∧
    skipLine specClassifier ['a', 'b', 'c'] 0 ['a', 'b', 'c'].length 7 = .ok (3, 8) := by
  refine ⟨?_, rfl⟩
  intro q c hq hc
  have hq3 : q < 3 := hq
  interval_cases q <;> simp at hc <;> subst hc <;> rfl

/-- C9: when the first line terminator of `[it, end)` is at position `p`,
`skipLine` returns the first position `q ≥ p + 1` that is `end` or holds a
character that is neither a tab nor a space: it lands after the nearest line
terminator and past the tabs and spaces that follow it; everything between
`p` and `q` is a tab or a space, so (tab and space not being line terminators)
no second line terminator is passed. -/
theorem skipLine_lands_after_terminator (K : Classifier) (buf : List Char) (it p n : Nat)
    (hp1 : it ≤ p) (hp2 : p < buf.length)
    (hp : ∃ c, buf[p]? = some c ∧ K.IsLineEnd c = true)
    (hfirst : ∀ r c, it ≤ r → r < p → buf[r]? = some c → K.IsLineEnd c = false) :
    ∃ q n1, skipLine K buf it buf.length n = .ok (q, n1) ∧ p + 1 ≤ q ∧ q ≤ buf.length ∧
      (q = buf.length ∨ ∃ c, buf[q]? = some c ∧ c ≠ '\t' ∧ c ≠ ' ') ∧
      (∀ r, p + 1 ≤ r → r < q → ∃ c, buf[r]? = some c ∧ (c = '\t' ∨ c = ' ')) ∧
      (K.IsLineEnd '\t' = false → K.IsLineEnd ' ' = false →
        ∀ r c, p < r → r < q → buf[r]? = some c → K.IsLineEnd c = false) := by
  have hlt : it < buf.length := by omega
  obtain ⟨p1, hp1e, h1, h2, h3, h4⟩ := lineScanLoop_ok K buf it (le_of_lt hlt)
  have hpp : p1 = p := by
    rcases Nat.lt_trichotomy p1 p with hl | he | hg
    · exfalso
      rcases h3 with hb | ⟨c, hc, hcc⟩
      · rw [isEndOfBuffer_eq_true_iff] at hb
        omega
      · have := hfirst p1 c h1 hl hc
        rw [hcc] at this
        cases this
    · exact he
    · exfalso
      obtain ⟨_, c, hc, hcc⟩ := h4 p hp1 hg
      obtain ⟨c2, hc2, hcc2⟩ := hp
      rw [hc] at hc2
      cases hc2
      rw [hcc] at hcc2
      cases hcc2
  subst hpp
  have hne : p1 ≠ buf.length := by omega
  obtain ⟨q, hq, hq1, hq2, hq3, hq4⟩ :=
    indentLoop_spec buf (buf.length + 1) (p1 + 1) (by omega) (by omega)
  refine ⟨q, (n + 1) % UINT_RANGE, ?_, hq1, hq2, hq3, hq4, ?_⟩
  · unfold skipLine
    simp [Nat.not_le.mpr hlt, hp1e, hne, hq]
  · intro htab hsp r c hr1 hr2 hc
    obtain ⟨c2, hc2, hcc⟩ := hq4 r (by omega) hr2
    rw [hc] at hc2
    cases hc2
    rcases hcc with hcc | hcc <;> rw [hcc] <;> assumption

theorem skipLine_lands_after_terminator_witness :
    ∃ q n1, skipLine specClassifier ['a', 'b', '\n', ' ', '\t', 'c', 'd'] 0
        ['a', 'b', '\n', ' ', '\t', 'c', 'd'].length 0 = .ok (q, n1) ∧ 2 + 1 ≤ q ∧
      q ≤ ['a', 'b', '\n', ' ', '\t', 'c', 'd'].length ∧
      (q = ['a', 'b', '\n', ' ', '\t', 'c', 'd'].length ∨
        ∃ c, ['a', 'b', '\n', ' ', '\t', 'c', 'd'][q]? = some c ∧ c ≠ '\t' ∧ c ≠ ' ') ∧
      (∀ r, 2 + 1 ≤ r → r < q →
        ∃ c, ['a', 'b', '\n', ' ', '\t', 'c', 'd'][r]? = some c ∧ (c = '\t' ∨ c = ' ')) ∧
      (specClassifier.IsLineEnd '\t' = false → specClassifier.IsLineEnd ' ' = false →
        ∀ r c, 2 < r → r < q → ['a', 'b', '\n', ' ', '\t', 'c', 'd'][r]? = some c →
          specClassifier.IsLineEnd c = false) :=
  skipLine_lands_after_terminator specClassifier ['a', 'b', '\n', ' ', '\t', 'c', 'd'] 0 2 0
    (by decide) (by decide) ⟨'\n', rfl, rfl⟩
    (by
      intro r c _ hr hc
      interval_cases r <;> simp at hc <;> subst hc <;> rfl)

/-! ## Name extractors -/

/-- C3: at the example of the specification, the line `  hello world  ` closed
by a newline with the cursor on the `h`, `getName` returns the cursor `15` and
the name `hello world` followed by the two trailing spaces; they are not
trimmed, because the backward loop starts on the newline, which is not a
space. -/
theorem getName_keeps_trailing_spaces :
    isEndOfBuffer 2 helloWorldLine.length = false ∧
    getName specClassifier helloWorldLine 2 helloWorldLine.length [] =
      .ok (15, ['h', 'e', 'l', 'l', 'o', ' ', 'w', 'o', 'r', 'l', 'd', ' ', ' ']) :=
  ⟨rfl, rfl⟩

/-- When the forward scan of `getName` stops at the boundary on a space, the
backward loop stops on the last character that is not a space, and the name,
which ends before that cursor, loses it: `ab c` followed by two spaces gives
`ab` followed by one space. -/
theorem getName_drops_last_character :
    getName specClassifier ['a', 'b', ' ', 'c', ' ', ' '] 0 6 [] = .ok (3, ['a', 'b', ' ']) :=
  rfl

/-- C4: on the buffer made of a space and `abc`, with the cursor on the space at
index `0` (not at the boundary), the backward loop of `getNameNoSpace` steps
off the front of the buffer; no name is produced. -/
theorem getNameNoSpace_leaves_buffer :
    isEndOfBuffer 0 [' ', 'a', 'b', 'c'].length = false ∧
    getNameNoSpace specClassifier [' ', 'a', 'b', 'c'] 0 [' ', 'a', 'b', 'c'].length [] =
      .error .cursorBeforeBuffer :=
  ⟨rfl, rfl⟩

/-- On the example of the specification `getNameNoSpace` gives `hello` and the
cursor just past it. -/
theorem getNameNoSpace_hello :
    getNameNoSpace specClassifier helloWorldLine 2 helloWorldLine.length [] =
      .ok (7, ['h', 'e', 'l', 'l', 'o']) :=
  rfl

/-! ## Bounded word copy -/

/-- C5: with capacity `1` and a destination of one character, `CopyNextWord` on
the token `polygon` stores `p` at index `0`, never meets `index == length - 1`
(which is `0`), and stores the next character at index `1`, outside the
destination. -/
theorem CopyNextWord_capacity_one_overflows :
    0 < polygonLine.length ∧ 1 ≤ ['?'].length ∧
    CopyNextWord specClassifier polygonLine 0 polygonLine.length ['?'] 1 =
      .error .writeOutOfRange :=
  ⟨by decide, by decide, rfl⟩

/-- C6: for every cursor `it < end` and every capacity `length ≥ 2` (the size of
the destination), let `w` be the result of `getNextWord` and `t` the run
`[w, s)` of characters from `w` that are neither separators nor at a boundary
position. `CopyNextWord` succeeds without a store outside the destination, and
the destination then starts with the first `min |t| (length - 1)` characters
of `t` followed by the terminator. -/
theorem CopyNextWord_copies_prefix (K : Classifier) (buf : List Char) (it : Nat)
    (pBuffer : List Char) (length : Nat)
    (h : it < buf.length) (hcap : 2 ≤ length) (hdst : pBuffer.length = length) :
    ∃ w s t it1 out, getNextWord K buf it buf.length = .ok w ∧ w ≤ s ∧ s ≤ buf.length ∧
      (∀ q, w ≤ q → q < s → isEndOfBuffer q buf.length = false ∧
        ∃ c, buf[q]? = some c ∧ K.IsSpaceOrNewLine c = false) ∧
      (isEndOfBuffer s buf.length = true ∨ ∃ c, buf[s]? = some c ∧ K.IsSpaceOrNewLine c = true) ∧
      t = rangeString buf w s ∧
      CopyNextWord K buf it buf.length pBuffer length = .ok (it1, out) ∧ out.length = length ∧
      out.take (min t.length (length - 1) + 1) =
        t.take (min t.length (length - 1)) ++ [Char.ofNat 0] := by
  obtain ⟨w, hw, hw1, hw2, _, hw4⟩ := getNextWord_ok K buf it (le_of_lt h)
  have hwlt : w < buf.length :=
    lt_of_no_boundary _ it w h hw2 (fun q h1 h2 => (hw4 q h1 h2).1)
  obtain ⟨s, _, hs1, hs2, hs3, hs4⟩ :=
    scanWhile_spec (fun c => !K.IsSpaceOrNewLine c) buf (buf.length + 1) w hw2 (by omega)
  have hslt : s < buf.length :=
    lt_of_no_boundary _ w s hwlt hs2 (fun q h1 h2 => (hs4 q h1 h2).1)
  have hrun : ∀ q, w ≤ q → q < s → isEndOfBuffer q buf.length = false ∧
      ∃ c, buf[q]? = some c ∧ K.IsSpaceOrNewLine c = false := by
    intro q h1 h2
    obtain ⟨hb, c, hc, hcc⟩ := hs4 q h1 h2
    exact ⟨hb, c, hc, by simpa using hcc⟩
  have hstop : isEndOfBuffer s buf.length = true ∨
      ∃ c, buf[s]? = some c ∧ K.IsSpaceOrNewLine c = true := by
    rcases hs3 with hb | ⟨c, hc, hcc⟩
    · exact Or.inl hb
    · exact Or.inr ⟨c, hc, by simpa using hcc⟩
  obtain ⟨it1, out, ho, hol, _, hcopy⟩ :=
    copyLoop_spec K buf length (buf.length + 1) w 0 pBuffer s hs1 hslt hrun hstop (by omega) hdst
      (by omega)
  have htl : (rangeString buf w s).length = s - w := rangeString_length buf w s hs2
  have hk : min (rangeString buf w s).length (length - 1) = min (s - w) (length - 1 - 0) := by
    rw [htl]; rfl
  refine ⟨w, s, rangeString buf w s, it1, out.set (min (s - w) (length - 1 - 0)) (Char.ofNat 0),
    hw, hs1, hs2, hrun, hstop, rfl, ?_, by simp [hol], ?_⟩
  · unfold CopyNextWord
    simp only [hw, ho, Nat.zero_add]
    unfold store
    rw [if_pos (by omega)]
  · rw [hk]
    have hk1 : min (s - w) (length - 1 - 0) ≤ s - w := Nat.min_le_left _ _
    have hk2 : min (s - w) (length - 1 - 0) < length := by omega
    generalize min (s - w) (length - 1 - 0) = k at *
    have htk : (List.take k (rangeString buf w s)).length = k := by
      rw [List.length_take, htl]
      omega
    apply List.ext_getElem?
    intro j
    rcases Nat.lt_trichotomy j k with hj | hj | hj
    · rw [List.getElem?_take_of_lt (by omega), List.getElem?_set_ne (by omega),
        List.getElem?_append_left (by omega), List.getElem?_take_of_lt hj,
        rangeString_getElem? buf w s j (by omega)]
      have := hcopy j hj
      simpa using this
    · subst hj
      rw [List.getElem?_take_of_lt (by omega), List.getElem?_set_self (by omega),
        List.getElem?_append_right (by omega), htk]
      simp
    · rw [List.getElem?_eq_none (by simp [hol]; omega),
        List.getElem?_eq_none (by simp [htl]; omega)]

theorem CopyNextWord_copies_prefix_witness :
    0 < polygonLine.length ∧ 2 ≤ 4 ∧ ['?', '?', '?', '?'].length = 4 ∧
    CopyNextWord specClassifier polygonLine 0 polygonLine.length ['?', '?', '?', '?'] 4 =
      .ok (2, ['p', 'o', 'l', Char.ofNat 0]) ∧
    ∃ w s t it1 out, getNextWord specClassifier polygonLine 0 polygonLine.length = .ok w ∧
      w ≤ s ∧ s ≤ polygonLine.length ∧
      (∀ q, w ≤ q → q < s → isEndOfBuffer q polygonLine.length = false ∧
        ∃ c, polygonLine[q]? = some c ∧ specClassifier.IsSpaceOrNewLine c = false) ∧
      (isEndOfBuffer s polygonLine.length = true ∨
        ∃ c, polygonLine[s]? = some c ∧ specClassifier.IsSpaceOrNewLine c = true) ∧
      t = rangeString polygonLine w s ∧
      CopyNextWord specClassifier polygonLine 0 polygonLine.length ['?', '?', '?', '?'] 4 =
        .ok (it1, out) ∧ out.length = 4 ∧
      out.take (min t.length (4 - 1) + 1) = t.take (min t.length (4 - 1)) ++ [Char.ofNat 0] :=
  ⟨by decide, by decide, rfl, rfl,
    CopyNextWord_copies_prefix specClassifier polygonLine 0 ['?', '?', '?', '?'] 4
      (by decide) (by decide) rfl⟩

/-! ## Line-end prober -/

/-- C10: `hasLineEnd` never reads a character, so its answer is the same for
two buffers of equal length; whatever the classification of cursors is, the
answer is wrong either on `xab`, which holds no line terminator, or on the
same buffer with a newline in place of the `x`. -/
theorem hasLineEnd_ignores_buffer (IsLineEndOfCursor : Nat → Bool) :
    ¬ ((hasLineEnd IsLineEndOfCursor 0 ['x', 'a', 'b'].length = .ok true ↔
        ∃ q c, q < ['x', 'a', 'b'].length ∧ ['x', 'a', 'b'][q]? = some c ∧
          specClassifier.IsLineEnd c = true) ∧
      (hasLineEnd IsLineEndOfCursor 0 ['\n', 'a', 'b'].length = .ok true ↔
        ∃ q c, q < ['\n', 'a', 'b'].length ∧ ['\n', 'a', 'b'][q]? = some c ∧
          specClassifier.IsLineEnd c = true)) := by
  rintro ⟨h1, h2⟩
  have hyes : hasLineEnd IsLineEndOfCursor 0 ['\n', 'a', 'b'].length = .ok true :=
    h2.mpr ⟨0, '\n', by decide, rfl, rfl⟩
  obtain ⟨q, c, hq, hc, hl⟩ := h1.mp hyes
  have hq3 : q < 3 := hq
  interval_cases q <;> simp at hc <;> subst hc <;> cases hl

/-- With cursors that are never classified as line ends (a pointer into a buffer
is none of the character constants), `hasLineEnd` answers `false` on a buffer
whose first character is a newline. -/
theorem hasLineEnd_false_on_newline :
    hasLineEnd (fun _ => false) 0 ['\n', 'a', 'b'].length = .ok false :=
  rfl

/-! ## One call of `skipLine` -/

/-- From a cursor strictly before the end sentinel `skipLine` returns: the first
loop stops at a position `p1 < end`, the counter goes up by one, and the cursor
lands on the first position `q ≥ p1 + 1` that is `end` or holds neither tab nor
space. -/
theorem skipLine_ok (K : Classifier) (buf : List Char) (it n : Nat) (h : it < buf.length) :
    ∃ p1 q, skipLine K buf it buf.length n = .ok (q, (n + 1) % UINT_RANGE) ∧
      it ≤ p1 ∧ p1 < buf.length ∧
      (isEndOfBuffer p1 buf.length = true ∨ ∃ c, buf[p1]? = some c ∧ K.IsLineEnd c = true) ∧
      (∀ r, it ≤ r → r < p1 → isEndOfBuffer r buf.length = false ∧
        ∃ c, buf[r]? = some c ∧ K.IsLineEnd c = false) ∧
      p1 + 1 ≤ q ∧ q ≤ buf.length ∧
      (q = buf.length ∨ ∃ c, buf[q]? = some c ∧ c ≠ '\t' ∧ c ≠ ' ') ∧
      ∀ r, p1 + 1 ≤ r → r < q → ∃ c, buf[r]? = some c ∧ (c = '\t' ∨ c = ' ') := by
  obtain ⟨p1, hp1e, h1, _, h3, h4⟩ := lineScanLoop_ok K buf it (le_of_lt h)
  obtain ⟨_, hlt⟩ := lineScanLoop_lt K buf it p1 h hp1e
  have hne : p1 ≠ buf.length := by omega
  obtain ⟨q, hq, hq1, hq2, hq3, hq4⟩ :=
    indentLoop_spec buf (buf.length + 1) (p1 + 1) (by omega) (by omega)
  refine ⟨p1, q, ?_, h1, hlt, h3, h4, hq1, hq2, hq3, hq4⟩
  unfold skipLine
  simp [Nat.not_le.mpr h, hp1e, hne, hq]

/-- C19: from every cursor strictly before `end`, `skipLine` returns a cursor
strictly greater than its input and at most `end`; hence the driver that
repeats `skipLine` until the cursor equals `end` reaches `end` as soon as its
budget allows `end - cursor` calls. -/
theorem skipLine_advances (K : Classifier) (buf : List Char) (it n : Nat)
    (h : it < buf.length) :
    (∃ q n1, skipLine K buf it buf.length n = .ok (q, n1) ∧ it < q ∧ q ≤ buf.length) ∧
    ∀ fuel, buf.length - it < fuel → ∃ n2, skipLines K buf fuel it n = .ok (buf.length, n2) := by
  constructor
  · obtain ⟨p1, q, hs, h1, _, _, _, h5, h6, _⟩ := skipLine_ok K buf it n h
    exact ⟨q, _, hs, by omega, h6⟩
  · intro fuel
    have key : ∀ (fuel it n : Nat), it ≤ buf.length → buf.length - it < fuel →
        ∃ n2, skipLines K buf fuel it n = .ok (buf.length, n2) := by
      intro fuel
      induction fuel with
      | zero => intro it n h1 h2; omega
      | succ m ih =>
        intro it n h1 h2
        unfold skipLines
        by_cases he : it = buf.length
        · exact ⟨n, by simp [he]⟩
        · obtain ⟨p1, q, hs, h3, _, _, _, h5, h6, _⟩ := skipLine_ok K buf it n (by omega)
          obtain ⟨n2, hn2⟩ := ih q ((n + 1) % UINT_RANGE) h6 (by omega)
          exact ⟨n2, by simp [he, hs, hn2]⟩
    exact key fuel it n (le_of_lt h)

theorem skipLine_advances_witness :
    (0 : Nat) < ['a', '\n', ' ', 'b'].length ∧
    ((∃ q n1, skipLine specClassifier ['a', '\n', ' ', 'b'] 0 ['a', '\n', ' ', 'b'].length 0 =
        .ok (q, n1) ∧ 0 < q ∧ q ≤ ['a', '\n', ' ', 'b'].length) ∧
      ∀ fuel, ['a', '\n', ' ', 'b'].length - 0 < fuel →
        ∃ n2, skipLines specClassifier ['a', '\n', ' ', 'b'] fuel 0 0 =
          .ok (['a', '\n', ' ', 'b'].length, n2)) :=
  ⟨by decide, skipLine_advances specClassifier ['a', '\n', ' ', 'b'] 0 0 (by decide)⟩

/-! ## Idempotence of the word scanner -/

/-- From a position where its loop stops, `getNextWord` returns that position. -/
theorem getNextWord_of_stop (K : Classifier) (buf : List Char) (p : Nat)
    (hstop : isEndOfBuffer p buf.length = true ∨
      ∃ c, buf[p]? = some c ∧ (K.IsSpaceOrNewLine c = false ∨ K.IsLineEnd c = true)) :
    getNextWord K buf p buf.length = .ok p := by
  unfold getNextWord getNextWordLoop
  rcases hstop with hb | ⟨c, hc, hcc⟩
  · simp [hb]
  · have hd : deref buf p = .ok c := (deref_eq_ok_iff buf p c).mpr hc
    by_cases hb : isEndOfBuffer p buf.length = true
    · simp [hb]
    · have hb2 : isEndOfBuffer p buf.length = false := by simpa using hb
      rcases hcc with hs | hl
      · simp [hb2, hd, hs]
      · simp [hb2, hd, hl]

/-- C20: `getNextWord` is idempotent, and it leaves the result of `getNextToken`
where it is: for every cursor `it ≤ end` both scanners return, and
`getNextWord` applied to either result returns that result again. -/
theorem getNextWord_idempotent (K : Classifier) (buf : List Char) (it : Nat)
    (h : it ≤ buf.length) :
    (∃ p, getNextWord K buf it buf.length = .ok p ∧ getNextWord K buf p buf.length = .ok p) ∧
    (∃ r, getNextToken K buf it buf.length = .ok r ∧ getNextWord K buf r buf.length = .ok r) := by
  constructor
  · obtain ⟨p, hp, _, _, hstop, _⟩ := getNextWord_ok K buf it h
    exact ⟨p, hp, getNextWord_of_stop K buf p hstop⟩
  · obtain ⟨m, hm, _, hm2, _, _⟩ :=
      scanWhile_spec (fun c => !K.IsSpaceOrNewLine c) buf (buf.length + 1) it h (by omega)
    obtain ⟨r, hr, _, _, hstop, _⟩ := getNextWord_ok K buf m hm2
    refine ⟨r, ?_, getNextWord_of_stop K buf r hstop⟩
    unfold getNextToken
    rw [getNextTokenLoop_eq_scanWhile, hm]
    exact hr

theorem getNextWord_idempotent_witness :
    (0 : Nat) ≤ ['v', 'n', ' ', ' ', '1', ' ', '2', '\n'].length ∧
    ((∃ p, getNextWord specClassifier ['v', 'n', ' ', ' ', '1', ' ', '2', '\n'] 0
          ['v', 'n', ' ', ' ', '1', ' ', '2', '\n'].length = .ok p ∧
        getNextWord specClassifier ['v', 'n', ' ', ' ', '1', ' ', '2', '\n'] p
          ['v', 'n', ' ', ' ', '1', ' ', '2', '\n'].length = .ok p) ∧
      (∃ r, getNextToken specClassifier ['v', 'n', ' ', ' ', '1', ' ', '2', '\n'] 0
          ['v', 'n', ' ', ' ', '1', ' ', '2', '\n'].length = .ok r ∧
        getNextWord specClassifier ['v', 'n', ' ', ' ', '1', ' ', '2', '\n'] r
          ['v', 'n', ' ', ' ', '1', ' ', '2', '\n'].length = .ok r)) :=
  ⟨by decide,
    getNextWord_idempotent specClassifier ['v', 'n', ' ', ' ', '1', ' ', '2', '\n'] 0 (by decide)⟩

/-! ## Name extractors at the boundary -/

/-- C12: for a cursor at the boundary (`it = end` or `it + 1 = end`) and every
previous content of `name`, `getName` and `getNameNoSpace` both return the
cursor `end` together with the empty name. -/
theorem getName_at_boundary (K : Classifier) (buf : List Char) (it e : Nat) (name : List Char)
    (h : it = e ∨ it + 1 = e) :
    getName K buf it e name = .ok (e, []) ∧ getNameNoSpace K buf it e name = .ok (e, []) := by
  have hb : isEndOfBuffer it e = true := (isEndOfBuffer_eq_true_iff it e).mpr h
  constructor
  · unfold getName
    simp [hb]
  · unfold getNameNoSpace
    simp [hb]

theorem getName_at_boundary_witness :
    ((2 : Nat) = 3 ∨ 2 + 1 = 3) ∧
    (getName specClassifier ['a', 'b', 'c'] 2 3 ['o', 'l', 'd'] = .ok (3, []) ∧
      getNameNoSpace specClassifier ['a', 'b', 'c'] 2 3 ['o', 'l', 'd'] = .ok (3, [])) :=
  ⟨Or.inr rfl, getName_at_boundary specClassifier ['a', 'b', 'c'] 2 3 ['o', 'l', 'd'] (Or.inr rfl)⟩

/-! ## The positions read by the forward scanners -/

theorem getNextWordLoopTraced_snd (K : Classifier) (buf : List Char) (e : Nat) :
    ∀ (fuel it : Nat),
      (getNextWordLoopTraced K buf e fuel it).2 = getNextWordLoop K buf e fuel it := by
  intro fuel
  induction fuel with
  | zero => intro it; rfl
  | succ n ih =>
    intro it
    unfold getNextWordLoopTraced getNextWordLoop
    split
    · cases hd : deref buf it with
      | error f => rfl
      | ok c =>
        simp only []
        split
        · rfl
        · exact ih (it + 1)
    · rfl

theorem getNextWordLoopTraced_reads (K : Classifier) (buf : List Char) (e : Nat) :
    ∀ (fuel it : Nat), it ≤ e →
      ∀ r ∈ (getNextWordLoopTraced K buf e fuel it).1, it ≤ r ∧ r + 1 < e := by
  intro fuel
  induction fuel with
  | zero => intro it _ r hr; simp [getNextWordLoopTraced] at hr
  | succ n ih =>
    intro it hle r hr
    unfold getNextWordLoopTraced at hr
    by_cases hB : isEndOfBuffer it e = true
    · simp [hB] at hr
    · have hB2 : isEndOfBuffer it e = false := by simpa using hB
      have hlt := (isEndOfBuffer_eq_false_iff it e).mp hB2
      simp only [hB2, Bool.not_false, if_true] at hr
      cases hd : deref buf it with
      | error f =>
        simp [hd] at hr
        omega
      | ok c =>
        simp only [hd] at hr
        split at hr
        · simp at hr
          omega
        · rcases List.mem_cons.mp hr with h1 | h1
          · omega
          · have := ih (it + 1) (by omega) r h1
            omega

theorem getNextTokenLoopTraced_snd (K : Classifier) (buf : List Char) (e : Nat) :
    ∀ (fuel it : Nat),
      (getNextTokenLoopTraced K buf e fuel it).2 = getNextTokenLoop K buf e fuel it := by
  intro fuel
  induction fuel with
  | zero => intro it; rfl
  | succ n ih =>
    intro it
    unfold getNextTokenLoopTraced getNextTokenLoop
    split
    · cases hd : deref buf it with
      | error f => rfl
      | ok c =>
        simp only []
        split
        · rfl
        · exact ih (it + 1)
    · rfl

theorem getNextTokenLoopTraced_reads (K : Classifier) (buf : List Char) (e : Nat) :
    ∀ (fuel it : Nat), it ≤ e →
      ∀ r ∈ (getNextTokenLoopTraced K buf e fuel it).1, it ≤ r ∧ r + 1 < e := by
  intro fuel
  induction fuel with
  | zero => intro it _ r hr; simp [getNextTokenLoopTraced] at hr
  | succ n ih =>
    intro it hle r hr
    unfold getNextTokenLoopTraced at hr
    by_cases hB : isEndOfBuffer it e = true
    · simp [hB] at hr
    · have hB2 : isEndOfBuffer it e = false := by simpa using hB
      have hlt := (isEndOfBuffer_eq_false_iff it e).mp hB2
      simp only [hB2, Bool.not_false, if_true] at hr
      cases hd : deref buf it with
      | error f =>
        simp [hd] at hr
        omega
      | ok c =>
        simp only [hd] at hr
        split at hr
        · simp at hr
          omega
        · rcases List.mem_cons.mp hr with h1 | h1
          · omega
          · have := ih (it + 1) (by omega) r h1
            omega

theorem lineScanLoopTraced_snd (K : Classifier) (buf : List Char) (e : Nat) :
    ∀ (fuel it : Nat),
      (lineScanLoopTraced K buf e fuel it).2 = lineScanLoop K buf e fuel it := by
  intro fuel
  induction fuel with
  | zero => intro it; rfl
  | succ n ih =>
    intro it
    unfold lineScanLoopTraced lineScanLoop
    split
    · cases hd : deref buf it with
      | error f => rfl
      | ok c =>
        simp only []
        split
        · exact ih (it + 1)
        · rfl
    · rfl

theorem lineScanLoopTraced_reads (K : Classifier) (buf : List Char) (e : Nat) :
    ∀ (fuel it : Nat), it ≤ e →
      ∀ r ∈ (lineScanLoopTraced K buf e fuel it).1, it ≤ r ∧ r + 1 < e := by
  intro fuel
  induction fuel with
  | zero => intro it _ r hr; simp [lineScanLoopTraced] at hr
  | succ n ih =>
    intro it hle r hr
    unfold lineScanLoopTraced at hr
    by_cases hB : isEndOfBuffer it e = true
    · simp [hB] at hr
    · have hB2 : isEndOfBuffer it e = false := by simpa using hB
      have hlt := (isEndOfBuffer_eq_false_iff it e).mp hB2
      simp only [hB2, Bool.not_false, if_true] at hr
      cases hd : deref buf it with
      | error f =>
        simp [hd] at hr
        omega
      | ok c =>
        simp only [hd] at hr
        split at hr
        · rcases List.mem_cons.mp hr with h1 | h1
          · omega
          · have := ih (it + 1) (by omega) r h1
            omega
        · simp at hr
          omega

theorem indentLoopTraced_snd (buf : List Char) (e : Nat) :
    ∀ (fuel it : Nat), (indentLoopTraced buf e fuel it).2 = indentLoop buf e fuel it := by
  intro fuel
  induction fuel with
  | zero => intro it; rfl
  | succ n ih =>
    intro it
    unfold indentLoopTraced indentLoop
    split
    · cases hd : deref buf it with
      | error f => rfl
      | ok c =>
        simp only []
        split
        · exact ih (it + 1)
        · rfl
    · rfl

theorem indentLoopTraced_reads (buf : List Char) (e : Nat) :
    ∀ (fuel it : Nat), it ≤ e →
      ∀ r ∈ (indentLoopTraced buf e fuel it).1, it ≤ r ∧ r < e := by
  intro fuel
  induction fuel with
  | zero => intro it _ r hr; simp [indentLoopTraced] at hr
  | succ n ih =>
    intro it hle r hr
    unfold indentLoopTraced at hr
    by_cases hE : it = e
    · simp [hE] at hr
    · simp only [ne_eq, hE, not_false_eq_true, if_true] at hr
      cases hd : deref buf it with
      | error f =>
        simp [hd] at hr
        omega
      | ok c =>
        simp only [hd] at hr
        split at hr
        · rcases List.mem_cons.mp hr with h1 | h1
          · omega
          · have := ih (it + 1) (by omega) r h1
            omega
        · simp at hr
          omega

/-- The logging `getNextWord` computes the result of `getNextWord`. -/
theorem getNextWordTraced_snd (K : Classifier) (buf : List Char) (it e : Nat) :
    (getNextWordTraced K buf it e).2 = getNextWord K buf it e :=
  getNextWordLoopTraced_snd K buf e (buf.length + 1) it

/-- The logging `getNextToken` computes the result of `getNextToken`. -/
theorem getNextTokenTraced_snd (K : Classifier) (buf : List Char) (it e : Nat) :
    (getNextTokenTraced K buf it e).2 = getNextToken K buf it e := by
  unfold getNextTokenTraced getNextToken
  rw [getNextTokenLoopTraced_snd]
  cases getNextTokenLoop K buf e (buf.length + 1) it with
  | error f => rfl
  | ok p => exact getNextWordTraced_snd K buf p e

/-- The logging `skipLine` computes the result of `skipLine`. -/
theorem skipLineTraced_snd (K : Classifier) (buf : List Char) (it e n : Nat) :
    (skipLineTraced K buf it e n).2 = skipLine K buf it e n := by
  unfold skipLineTraced skipLine
  split
  · rfl
  · rw [lineScanLoopTraced_snd]
    cases lineScanLoop K buf e (buf.length + 1) it with
    | error f => rfl
    | ok it1 =>
      simp only [indentLoopTraced_snd]
      cases indentLoop buf e (buf.length + 1) (if it1 ≠ e then it1 + 1 else it1) with
      | error f => rfl
      | ok it3 => rfl

/-- C17: for every cursor `it ≤ end`, `getNextWord`, `getNextToken` and
`skipLine` return without a fault, and every position they hand to `deref`
(the log of the logging scanner, which computes the same result) lies in
`[it, end)`. -/
theorem forward_scanners_read_in_range (K : Classifier) (buf : List Char) (it n : Nat)
    (h : it ≤ buf.length) :
    ((getNextWordTraced K buf it buf.length).2 = getNextWord K buf it buf.length ∧
      (∃ p, getNextWord K buf it buf.length = .ok p) ∧
      ∀ r ∈ (getNextWordTraced K buf it buf.length).1, it ≤ r ∧ r < buf.length) ∧
    ((getNextTokenTraced K buf it buf.length).2 = getNextToken K buf it buf.length ∧
      (∃ p, getNextToken K buf it buf.length = .ok p) ∧
      ∀ r ∈ (getNextTokenTraced K buf it buf.length).1, it ≤ r ∧ r < buf.length) ∧
    ((skipLineTraced K buf it buf.length n).2 = skipLine K buf it buf.length n ∧
      (∃ q n1, skipLine K buf it buf.length n = .ok (q, n1)) ∧
      ∀ r ∈ (skipLineTraced K buf it buf.length n).1, it ≤ r ∧ r < buf.length) := by
  refine ⟨⟨getNextWordTraced_snd K buf it _, ?_, ?_⟩, ⟨getNextTokenTraced_snd K buf it _, ?_, ?_⟩,
    ⟨skipLineTraced_snd K buf it _ n, ?_, ?_⟩⟩
  · obtain ⟨p, hp, _⟩ := getNextWord_ok K buf it h
    exact ⟨p, hp⟩
  · intro r hr
    have := getNextWordLoopTraced_reads K buf buf.length (buf.length + 1) it h r hr
    omega
  · obtain ⟨m, hm, _, hm2, _, _⟩ :=
      scanWhile_spec (fun c => !K.IsSpaceOrNewLine c) buf (buf.length + 1) it h (by omega)
    obtain ⟨p, hp, _⟩ := getNextWord_ok K buf m hm2
    refine ⟨p, ?_⟩
    unfold getNextToken
    rw [getNextTokenLoop_eq_scanWhile, hm]
    exact hp
  · intro r hr
    obtain ⟨m, hm, hm1, hm2, _, _⟩ :=
      scanWhile_spec (fun c => !K.IsSpaceOrNewLine c) buf (buf.length + 1) it h (by omega)
    unfold getNextTokenTraced at hr
    rw [getNextTokenLoopTraced_snd, getNextTokenLoop_eq_scanWhile, hm] at hr
    simp only [List.mem_append] at hr
    rcases hr with hr | hr
    · have := getNextTokenLoopTraced_reads K buf buf.length (buf.length + 1) it h r hr
      omega
    · have := getNextWordLoopTraced_reads K buf buf.length (buf.length + 1) m hm2 r hr
      omega
  · by_cases hlt : it < buf.length
    · obtain ⟨p1, q, hs, _⟩ := skipLine_ok K buf it n hlt
      exact ⟨q, _, hs⟩
    · exact ⟨it, n, by simp [skipLine, Nat.le_of_not_lt hlt]⟩
  · intro r hr
    unfold skipLineTraced at hr
    by_cases hlt : it < buf.length
    · obtain ⟨p1, hp1e, h1, _⟩ := lineScanLoop_ok K buf it h
      obtain ⟨_, hp1lt⟩ := lineScanLoop_lt K buf it p1 hlt hp1e
      have hne : p1 ≠ buf.length := by omega
      obtain ⟨q, hq, _⟩ := indentLoop_spec buf (buf.length + 1) (p1 + 1) (by omega) (by omega)
      rw [if_neg (by omega), lineScanLoopTraced_snd, hp1e] at hr
      simp only [ne_eq, hne, not_false_eq_true, if_true, indentLoopTraced_snd, hq,
        List.mem_append] at hr
      rcases hr with hr | hr
      · have := lineScanLoopTraced_reads K buf buf.length (buf.length + 1) it h r hr
        omega
      · have := indentLoopTraced_reads buf buf.length (buf.length + 1) (p1 + 1) (by omega) r hr
        omega
    · rw [if_pos (by omega)] at hr
      simp at hr

theorem forward_scanners_read_in_range_witness :
    (0 : Nat) ≤ ['a', '\n', ' ', 'b'].length ∧
    skipLineTraced specClassifier ['a', '\n', ' ', 'b'] 0 ['a', '\n', ' ', 'b'].length 0 =
      ([0, 1, 2, 3], .ok (3, 1)) ∧
    (((getNextWordTraced specClassifier ['a', '\n', ' ', 'b'] 0 ['a', '\n', ' ', 'b'].length).2 =
        getNextWord specClassifier ['a', '\n', ' ', 'b'] 0 ['a', '\n', ' ', 'b'].length ∧
      (∃ p, getNextWord specClassifier ['a', '\n', ' ', 'b'] 0
        ['a', '\n', ' ', 'b'].length = .ok p) ∧
      ∀ r ∈ (getNextWordTraced specClassifier ['a', '\n', ' ', 'b'] 0
          ['a', '\n', ' ', 'b'].length).1, 0 ≤ r ∧ r < ['a', '\n', ' ', 'b'].length) ∧
    ((getNextTokenTraced specClassifier ['a', '\n', ' ', 'b'] 0 ['a', '\n', ' ', 'b'].length).2 =
        getNextToken specClassifier ['a', '\n', ' ', 'b'] 0 ['a', '\n', ' ', 'b'].length ∧
      (∃ p, getNextToken specClassifier ['a', '\n', ' ', 'b'] 0
        ['a', '\n', ' ', 'b'].length = .ok p) ∧
      ∀ r ∈ (getNextTokenTraced specClassifier ['a', '\n', ' ', 'b'] 0
          ['a', '\n', ' ', 'b'].length).1, 0 ≤ r ∧ r < ['a', '\n', ' ', 'b'].length) ∧
    ((skipLineTraced specClassifier ['a', '\n', ' ', 'b'] 0 ['a', '\n', ' ', 'b'].length 0).2 =
        skipLine specClassifier ['a', '\n', ' ', 'b'] 0 ['a', '\n', ' ', 'b'].length 0 ∧
      (∃ q n1, skipLine specClassifier ['a', '\n', ' ', 'b'] 0
        ['a', '\n', ' ', 'b'].length 0 = .ok (q, n1)) ∧
      ∀ r ∈ (skipLineTraced specClassifier ['a', '\n', ' ', 'b'] 0
          ['a', '\n', ' ', 'b'].length 0).1, 0 ≤ r ∧ r < ['a', '\n', ' ', 'b'].length)) :=
  ⟨by decide, rfl,
    forward_scanners_read_in_range specClassifier ['a', '\n', ' ', 'b'] 0 0 (by decide)⟩

/-! ## Results of the extractors that return -/

theorem trimSpaceLoop_le (K : Classifier) (buf : List Char) :
    ∀ (fuel it q : Nat), trimSpaceLoop K buf fuel it = .ok q → q ≤ it := by
  intro fuel
  induction fuel with
  | zero => intro it q h; simp [trimSpaceLoop] at h
  | succ n ih =>
    intro it q h
    unfold trimSpaceLoop at h
    cases hd : deref buf it with
    | error f => simp [hd] at h
    | ok c =>
      simp only [hd] at h
      split at h
      · rcases decrement_cases it with ⟨_, hdec⟩ | ⟨_, hdec⟩
        · simp [hdec] at h
        · simp only [hdec] at h
          have := ih (it - 1) q h
          omega
      · simp at h
        omega

theorem trimSeparatorLoop_le (K : Classifier) (buf : List Char) (e : Nat) :
    ∀ (fuel it q : Nat), trimSeparatorLoop K buf e fuel it = .ok q →
      q ≤ it ∧ (q = it → isEndOfBuffer it e = false ∧
        ∃ c, buf[it]? = some c ∧ (K.IsLineEnd c || K.IsSpaceOrNewLine c) = false) := by
  intro fuel
  induction fuel with
  | zero => intro it q h; simp [trimSeparatorLoop] at h
  | succ n ih =>
    intro it q h
    unfold trimSeparatorLoop at h
    by_cases hB : isEndOfBuffer it e = true
    · simp only [hB, if_true] at h
      rcases decrement_cases it with ⟨_, hdec⟩ | ⟨_, hdec⟩
      · simp [hdec] at h
      · simp only [hdec] at h
        have := (ih (it - 1) q h).1
        exact ⟨by omega, fun hq => by omega⟩
    · have hB2 : isEndOfBuffer it e = false := by simpa using hB
      simp only [hB2] at h
      cases hd : deref buf it with
      | error f => simp [hd] at h
      | ok c =>
        simp only [hd] at h
        by_cases hc : (K.IsLineEnd c || K.IsSpaceOrNewLine c) = true
        · simp only [hc, if_true] at h
          rcases decrement_cases it with ⟨_, hdec⟩ | ⟨_, hdec⟩
          · simp [hdec] at h
          · simp only [hdec] at h
            have := (ih (it - 1) q h).1
            exact ⟨by omega, fun hq => by omega⟩
        · have hc2 : (K.IsLineEnd c || K.IsSpaceOrNewLine c) = false := by simpa using hc
          simp [hc2] at h
          subst h
          exact ⟨le_refl _, fun _ => ⟨hB2, c, (deref_eq_ok_iff buf it c).mp hd, hc2⟩⟩

/-- Whenever `getName` returns, the cursor lies between the input cursor and
`end`, and the name is a range of the buffer that starts at the input cursor
and ends at or before the last position of the buffer. -/
theorem getName_of_ok (K : Classifier) (buf : List Char) (it : Nat) (name0 : List Char)
    (c1 : Nat) (name : List Char) (h : it ≤ buf.length)
    (hr : getName K buf it buf.length name0 = .ok (c1, name)) :
    it ≤ c1 ∧ c1 ≤ buf.length ∧ ∃ b, b ≤ buf.length - 1 ∧ name = rangeString buf it b := by
  unfold getName at hr
  by_cases hB : isEndOfBuffer it buf.length = true
  · simp [hB] at hr
    obtain ⟨h1, h2⟩ := hr
    subst h1 h2
    refine ⟨h, le_refl _, buf.length - 1, le_refl _, ?_⟩
    rw [isEndOfBuffer_eq_true_iff] at hB
    unfold rangeString
    have : buf.length - 1 - it = 0 := by omega
    simp [this]
  · have hB2 : isEndOfBuffer it buf.length = false := by simpa using hB
    have hlt := (isEndOfBuffer_eq_false_iff it buf.length).mp hB2
    obtain ⟨p, hp, hp1, _⟩ := lineScanLoop_ok K buf it h
    obtain ⟨_, hp2⟩ := lineScanLoop_lt K buf it p (by omega) hp
    simp only [hB2, hp] at hr
    cases ht : trimSpaceLoop K buf (p + 1) p with
    | error f => simp [ht] at hr
    | ok it2 =>
      have hle := trimSpaceLoop_le K buf (p + 1) p it2 ht
      simp only [ht, backToStartLoop_spec it (it + 1) it2 (by omega), name_of_strName] at hr
      simp at hr
      obtain ⟨h1, h2⟩ := hr
      refine ⟨by omega, by omega, max it2 it, by omega, ?_⟩
      rw [← h2]

/-- Whenever `getNameNoSpace` returns, the cursor lies between the input cursor
and `end`, and the name is a range of the buffer that starts at the input
cursor and ends at or before the last position of the buffer. -/
theorem getNameNoSpace_of_ok (K : Classifier) (buf : List Char) (it : Nat) (name0 : List Char)
    (c1 : Nat) (name : List Char) (h : it ≤ buf.length)
    (hr : getNameNoSpace K buf it buf.length name0 = .ok (c1, name)) :
    it ≤ c1 ∧ c1 ≤ buf.length ∧ ∃ b, b ≤ buf.length - 1 ∧ name = rangeString buf it b := by
  unfold getNameNoSpace at hr
  by_cases hB : isEndOfBuffer it buf.length = true
  · simp [hB] at hr
    obtain ⟨h1, h2⟩ := hr
    subst h1 h2
    refine ⟨h, le_refl _, buf.length - 1, le_refl _, ?_⟩
    rw [isEndOfBuffer_eq_true_iff] at hB
    unfold rangeString
    have : buf.length - 1 - it = 0 := by omega
    simp [this]
  · have hB2 : isEndOfBuffer it buf.length = false := by simpa using hB
    have hlt := (isEndOfBuffer_eq_false_iff it buf.length).mp hB2
    obtain ⟨p, hp, hp1, hp2, hp3, _⟩ :=
      scanWhile_spec (fun c => !K.IsLineEnd c && !K.IsSpaceOrNewLine c) buf (buf.length + 1) it h
        (by omega)
    have hplt : p < buf.length := by
      by_contra hn
      rcases hp3 with hb | ⟨c, hc, _⟩
      · have hpe : p = buf.length := by omega
        have hscan := scanWhile_spec (fun c => !K.IsLineEnd c && !K.IsSpaceOrNewLine c) buf
          (buf.length + 1) it h (by omega)
        obtain ⟨p', hp', _, _, _, hrun⟩ := hscan
        rw [hp] at hp'
        cases hp'
        have := (hrun (buf.length - 1) (by omega) (by omega)).1
        rw [isEndOfBuffer_eq_false_iff] at this
        omega
      · have := (List.getElem?_eq_some.mp hc).1
        omega
    rw [wordScanLoop_eq_scanWhile, hp] at hr
    simp only [hB2] at hr
    cases ht : trimSeparatorLoop K buf buf.length (p + 1) p with
    | error f => simp [ht] at hr
    | ok it2 =>
      obtain ⟨hle, hcont⟩ := trimSeparatorLoop_le K buf buf.length (p + 1) p it2 ht
      have hne : it2 ≠ p := by
        intro he
        obtain ⟨hb, c, hc, hcc⟩ := hcont he
        rcases hp3 with hb2 | ⟨c2, hc2, hcc2⟩
        · rw [hb] at hb2
          cases hb2
        · rw [hc] at hc2
          cases hc2
          cases hl : K.IsLineEnd c <;> cases hs : K.IsSpaceOrNewLine c <;> simp_all
      simp only [ht, backToStartLoop_spec it (it + 1) (it2 + 1) (by omega), name_of_strName] at hr
      simp at hr
      obtain ⟨h1, h2⟩ := hr
      refine ⟨by omega, by omega, max (it2 + 1) it, by omega, ?_⟩
      rw [← h2]

/-- Whenever the copy loop of `CopyNextWord` returns, it has stored a run of
characters read at consecutive positions from the cursor on, none of them at
the boundary, at consecutive indices from `index` on, and has left the earlier
entries of the destination alone; the returned cursor is a readable position
at or after the input cursor. -/
theorem CopyNextWordLoop_of_ok (K : Classifier) (buf : List Char) (length : Nat) :
    ∀ (fuel it index : Nat) (pBuffer : List Char) (it1 index1 : Nat) (out : List Char),
      CopyNextWordLoop K buf buf.length length fuel it index pBuffer = .ok (it1, index1, out) →
      it ≤ it1 ∧ it1 < buf.length ∧ index ≤ index1 ∧ out.length = pBuffer.length ∧
        (∀ j, j < index → out[j]? = pBuffer[j]?) ∧
        (index < index1 → it + (index1 - index) < buf.length) ∧
        ∀ j, j < index1 - index → out[index + j]? = buf[it + j]? := by
  intro fuel
  induction fuel with
  | zero => intro it index pBuffer it1 index1 out h; simp [CopyNextWordLoop] at h
  | succ n ih =>
    intro it index pBuffer it1 index1 out h
    unfold CopyNextWordLoop at h
    cases hd : deref buf it with
    | error f => simp [hd] at h
    | ok c =>
      have hit : it < buf.length := deref_ok_lt buf it c hd
      have hc : buf[it]? = some c := (deref_eq_ok_iff buf it c).mp hd
      simp only [hd] at h
      by_cases hcond : (!K.IsSpaceOrNewLine c && !isEndOfBuffer it buf.length) = true
      · simp only [hcond, if_true] at h
        have hB : isEndOfBuffer it buf.length = false := by
          cases hb : isEndOfBuffer it buf.length <;> simp_all
        have hlt := (isEndOfBuffer_eq_false_iff it buf.length).mp hB
        unfold store at h
        by_cases hi : index < pBuffer.length
        · simp only [hi, if_true] at h
          by_cases hbrk : index + 1 = length - 1
          · simp only [hbrk, if_true] at h
            simp at h
            obtain ⟨h1, h2, h3⟩ := h
            subst h1 h3
            refine ⟨le_refl _, hit, by omega, by simp, ?_, fun _ => by omega, ?_⟩
            · intro j hj
              rw [List.getElem?_set_ne (by omega)]
            · intro j hj
              have hj0 : j = 0 := by omega
              subst hj0
              show (pBuffer.set index c)[index]? = buf[it]?
              rw [List.getElem?_set_self hi, hc]
          · simp only [hbrk, if_false] at h
            obtain ⟨g1, g2, g3, g4, g5, g6, g7⟩ :=
              ih (it + 1) (index + 1) (pBuffer.set index c) it1 index1 out h
            have hat : out[index]? = some c := by
              rw [g5 index (by omega), List.getElem?_set_self hi]
            refine ⟨by omega, g2, by omega, by simpa using g4, ?_, ?_, ?_⟩
            · intro j hj
              rw [g5 j (by omega), List.getElem?_set_ne (by omega)]
            · intro _
              by_cases hidx : index + 1 < index1
              · have := g6 hidx
                omega
              · omega
            · intro j hj
              by_cases hj0 : j = 0
              · subst hj0
                exact hat.trans hc.symm
              · have := g7 (j - 1) (by omega)
                have e1 : index + 1 + (j - 1) = index + j := by omega
                have e2 : it + 1 + (j - 1) = it + j := by omega
                rw [e1, e2] at this
                exact this
        · simp [hi] at h
      · have hcond2 : (!K.IsSpaceOrNewLine c && !isEndOfBuffer it buf.length) = false := by
          simpa using hcond
        simp only [hcond2] at h
        simp at h
        obtain ⟨h1, h2, h3⟩ := h
        subst h1 h2 h3
        exact ⟨le_refl _, hit, le_refl _, rfl, fun _ _ => rfl, fun hh => by omega,
          fun j hj => by omega⟩

/-- Whenever `CopyNextWord` returns, the cursor lies between the input cursor
and `end`, and the destination starts with `k` characters read at the
positions `w, ..., w + k - 1`, all in `[it, end - 1)`, followed by the
terminator. -/
theorem CopyNextWord_of_ok (K : Classifier) (buf : List Char) (it : Nat) (pBuffer : List Char)
    (length c1 : Nat) (out : List Char) (h : it ≤ buf.length)
    (hr : CopyNextWord K buf it buf.length pBuffer length = .ok (c1, out)) :
    it ≤ c1 ∧ c1 ≤ buf.length ∧ ∃ w k, it ≤ w ∧ w + k ≤ buf.length - 1 ∧
      (∀ j, j < k → out[j]? = buf[w + j]?) ∧ out[k]? = some (Char.ofNat 0) := by
  unfold CopyNextWord at hr
  obtain ⟨w, hw, hw1, hw2, _⟩ := getNextWord_ok K buf it h
  simp only [hw] at hr
  cases hl : CopyNextWordLoop K buf buf.length length (buf.length + 1) w 0 pBuffer with
  | error f => simp [hl] at hr
  | ok r =>
    obtain ⟨it2, index, out1⟩ := r
    obtain ⟨g1, g2, _, g4, _, g6, g7⟩ :=
      CopyNextWordLoop_of_ok K buf length (buf.length + 1) w 0 pBuffer it2 index out1 hl
    simp only [hl] at hr
    unfold store at hr
    by_cases hi : index < out1.length
    · simp only [hi, if_true] at hr
      simp at hr
      obtain ⟨h1, h2⟩ := hr
      subst h1 h2
      refine ⟨by omega, by omega, w, index, hw1, ?_, ?_, ?_⟩
      · by_cases h0 : 0 < index
        · have := g6 h0
          omega
        · omega
      · intro j hj
        rw [List.getElem?_set_ne (by omega)]
        have := g7 j (by omega)
        simpa using this
      · rw [List.getElem?_set_self hi]
    · simp [hi] at hr

/-- For every cursor `it ≤ end` the forward scanners return a cursor between
`it` and `end`, and so does every call of `getName`, `getNameNoSpace` and
`CopyNextWord` that returns. -/
theorem cursor_bounds (K : Classifier) (buf : List Char) (it n : Nat) (name0 pBuffer : List Char)
    (length : Nat) (h : it ≤ buf.length) :
    (∃ p, getNextWord K buf it buf.length = .ok p ∧ it ≤ p ∧ p ≤ buf.length) ∧
    (∃ p, getNextToken K buf it buf.length = .ok p ∧ it ≤ p ∧ p ≤ buf.length) ∧
    (∃ q n1, skipLine K buf it buf.length n = .ok (q, n1) ∧ it ≤ q ∧ q ≤ buf.length) ∧
    (∀ c1 name, getName K buf it buf.length name0 = .ok (c1, name) →
      it ≤ c1 ∧ c1 ≤ buf.length) ∧
    (∀ c1 name, getNameNoSpace K buf it buf.length name0 = .ok (c1, name) →
      it ≤ c1 ∧ c1 ≤ buf.length) ∧
    (∀ c1 out, CopyNextWord K buf it buf.length pBuffer length = .ok (c1, out) →
      it ≤ c1 ∧ c1 ≤ buf.length) := by
  refine ⟨?_, ?_, ?_, ?_, ?_, ?_⟩
  · obtain ⟨p, hp, h1, h2, _⟩ := getNextWord_ok K buf it h
    exact ⟨p, hp, h1, h2⟩
  · obtain ⟨m, hm, hm1, hm2, _, _⟩ :=
      scanWhile_spec (fun c => !K.IsSpaceOrNewLine c) buf (buf.length + 1) it h (by omega)
    obtain ⟨p, hp, hp1, hp2, _⟩ := getNextWord_ok K buf m hm2
    refine ⟨p, ?_, by omega, hp2⟩
    unfold getNextToken
    rw [getNextTokenLoop_eq_scanWhile, hm]
    exact hp
  · by_cases hlt : it < buf.length
    · obtain ⟨p1, q, hs, h1, _, _, _, h5, h6, _⟩ := skipLine_ok K buf it n hlt
      exact ⟨q, _, hs, by omega, h6⟩
    · exact ⟨it, n, by simp [skipLine, Nat.le_of_not_lt hlt], le_refl _, h⟩
  · intro c1 name hr
    obtain ⟨h1, h2, _⟩ := getName_of_ok K buf it name0 c1 name h hr
    exact ⟨h1, h2⟩
  · intro c1 name hr
    obtain ⟨h1, h2, _⟩ := getNameNoSpace_of_ok K buf it name0 c1 name h hr
    exact ⟨h1, h2⟩
  · intro c1 out hr
    obtain ⟨h1, h2, _⟩ := CopyNextWord_of_ok K buf it pBuffer length c1 out h hr
    exact ⟨h1, h2⟩

/-! ## Faults of the extractors -/

/-- C11: on the buffer made of three spaces, a newline and `ab`, with the cursor
on the first space, every character up to the line terminator is a space, and
`getName` yields the name made of the three spaces, not the empty name. -/
theorem getName_keeps_blank_span :
    isEndOfBuffer 0 [' ', ' ', ' ', '\n', 'a', 'b'].length = false ∧
    specClassifier.IsLineEnd '\n' = true ∧
    getName specClassifier [' ', ' ', ' ', '\n', 'a', 'b'] 0 [' ', ' ', ' ', '\n', 'a', 'b'].length
      [] = .ok (3, [' ', ' ', ' ']) :=
  ⟨rfl, rfl, rfl⟩

/-- C14: three calls with a cursor `it ≤ end` that return no cursor at all.
`getName` and `getNameNoSpace` on a buffer of three spaces with the cursor at
index `0` step off the front of the buffer, and `CopyNextWord` with the cursor
at `end` reads the position `end`. -/
theorem extractors_return_no_cursor :
    getName specClassifier [' ', ' ', ' '] 0 [' ', ' ', ' '].length [] =
      .error .cursorBeforeBuffer ∧
    getNameNoSpace specClassifier [' ', ' ', ' '] 0 [' ', ' ', ' '].length [] =
      .error .cursorBeforeBuffer ∧
    CopyNextWord specClassifier ['a', 'b'] 2 ['a', 'b'].length ['?', '?', '?', '?'] 4 =
      .error .readOutOfRange :=
  ⟨rfl, rfl, rfl⟩

/-- C15: with the cursor at index `0` of a buffer that starts with two spaces
(not at the boundary), the backward loops of `getName` (after a scan that
stopped at the boundary on a space) and of `getNameNoSpace` are not stopped at
the recorded start: they decrement the cursor below the first position of the
buffer. -/
theorem name_extractors_leave_buffer :
    isEndOfBuffer 0 [' ', ' ', ' ', ' '].length = false ∧
    getName specClassifier [' ', ' ', ' ', ' '] 0 [' ', ' ', ' ', ' '].length [] =
      .error .cursorBeforeBuffer ∧
    isEndOfBuffer 0 [' ', ' ', 'a', 'b'].length = false ∧
    getNameNoSpace specClassifier [' ', ' ', 'a', 'b'] 0 [' ', ' ', 'a', 'b'].length [] =
      .error .cursorBeforeBuffer :=
  ⟨rfl, rfl, rfl, rfl⟩

/-- C16: with the cursor at `end`, `CopyNextWord` (and `getFloat` through it)
evaluates `*it` before the boundary test and reads the position `end`, which
is outside the buffer; on the empty buffer as well. -/
theorem CopyNextWord_reads_end_sentinel :
    CopyNextWord specClassifier polygonLine polygonLine.length polygonLine.length
      ['?', '?', '?', '?'] 4 = .error .readOutOfRange ∧
    getFloat (fun s => s) specClassifier polygonLine polygonLine.length polygonLine.length [] =
      .error .readOutOfRange ∧
    CopyNextWord specClassifier [] 0 0 ['?', '?', '?', '?'] 4 = .error .readOutOfRange :=
  ⟨rfl, rfl, rfl⟩

/-! ## The last character of the buffer -/

/-- C18: for every non-empty buffer and every cursor `it ≤ end`, every name that
`getName` or `getNameNoSpace` returns is a range of the buffer that starts at
the cursor and ends at or before position `end - 1`, and every word that
`CopyNextWord` returns was read at positions `w, ..., w + k - 1` with `it ≤ w`
and `w + k ≤ end - 1`: the character at `end - 1` is never captured. -/
theorem captured_content_excludes_last (K : Classifier) (buf : List Char) (it : Nat)
    (name0 pBuffer : List Char) (length : Nat) (hne : 0 < buf.length) (h : it ≤ buf.length) :
    (∀ c1 name, getName K buf it buf.length name0 = .ok (c1, name) →
      ∃ b, b ≤ buf.length - 1 ∧ name = rangeString buf it b) ∧
    (∀ c1 name, getNameNoSpace K buf it buf.length name0 = .ok (c1, name) →
      ∃ b, b ≤ buf.length - 1 ∧ name = rangeString buf it b) ∧
    (∀ c1 out, CopyNextWord K buf it buf.length pBuffer length = .ok (c1, out) →
      ∃ w k, it ≤ w ∧ w + k ≤ buf.length - 1 ∧
        (∀ j, j < k → out[j]? = buf[w + j]?) ∧ out[k]? = some (Char.ofNat 0)) := by
  refine ⟨?_, ?_, ?_⟩
  · intro c1 name hr
    exact (getName_of_ok K buf it name0 c1 name h hr).2.2
  · intro c1 name hr
    exact (getNameNoSpace_of_ok K buf it name0 c1 name h hr).2.2
  · intro c1 out hr
    exact (CopyNextWord_of_ok K buf it pBuffer length c1 out h hr).2.2

theorem captured_content_excludes_last_witness :
    0 < ['a', 'b', 'c'].length ∧ 0 ≤ ['a', 'b', 'c'].length ∧
    getName specClassifier ['a', 'b', 'c'] 0 ['a', 'b', 'c'].length [] = .ok (2, ['a', 'b']) ∧
    getNameNoSpace specClassifier ['a', 'b', 'c'] 0 ['a', 'b', 'c'].length [] =
      .ok (2, ['a', 'b']) ∧
    CopyNextWord specClassifier ['a', 'b', 'c'] 0 ['a', 'b', 'c'].length ['?', '?', '?', '?'] 4 =
      .ok (2, ['a', 'b', Char.ofNat 0, '?']) ∧
    ((∀ c1 name, getName specClassifier ['a', 'b', 'c'] 0 ['a', 'b', 'c'].length [] =
        .ok (c1, name) →
      ∃ b, b ≤ ['a', 'b', 'c'].length - 1 ∧ name = rangeString ['a', 'b', 'c'] 0 b) ∧
    (∀ c1 name, getNameNoSpace specClassifier ['a', 'b', 'c'] 0 ['a', 'b', 'c'].length [] =
        .ok (c1, name) →
      ∃ b, b ≤ ['a', 'b', 'c'].length - 1 ∧ name = rangeString ['a', 'b', 'c'] 0 b) ∧
    (∀ c1 out, CopyNextWord specClassifier ['a', 'b', 'c'] 0 ['a', 'b', 'c'].length
        ['?', '?', '?', '?'] 4 = .ok (c1, out) →
      ∃ w k, 0 ≤ w ∧ w + k ≤ ['a', 'b', 'c'].length - 1 ∧
        (∀ j, j < k → out[j]? = ['a', 'b', 'c'][w + j]?) ∧ out[k]? = some (Char.ofNat 0))) :=
  ⟨by decide, by decide, rfl, rfl, rfl,
    captured_content_excludes_last specClassifier ['a', 'b', 'c'] 0 [] ['?', '?', '?', '?'] 4
      (by decide) (by decide)⟩

/-! ## The round trip over a buffer -/

theorem UINT_RANGE_eq : UINT_RANGE = 4294967296 := by
  unfold UINT_RANGE
  norm_num

theorem terminatorsFrom_of_ge (K : Classifier) (buf : List Char) (it : Nat)
    (h : buf.length ≤ it) : terminatorsFrom K buf it = 0 := by
  unfold terminatorsFrom
  rw [List.drop_of_length_le h]
  rfl

theorem terminatorsFrom_step (K : Classifier) (buf : List Char) (it : Nat) (c : Char)
    (hc : buf[it]? = some c) :
    terminatorsFrom K buf it = (if K.IsLineEnd c = true then 1 else 0) +
      terminatorsFrom K buf (it + 1) := by
  obtain ⟨hlt, hget⟩ := List.getElem?_eq_some.mp hc
  unfold terminatorsFrom
  rw [List.drop_eq_getElem_cons hlt, List.countP_cons, hget]
  omega

/-- A stretch of the buffer without line terminator does not change the number
of line terminators ahead. -/
theorem terminatorsFrom_skip (K : Classifier) (buf : List Char) :
    ∀ (d it : Nat), it + d ≤ buf.length →
      (∀ r c, it ≤ r → r < it + d → buf[r]? = some c → K.IsLineEnd c = false) →
      terminatorsFrom K buf it = terminatorsFrom K buf (it + d) := by
  intro d
  induction d with
  | zero => intro it _ _; rfl
  | succ k ih =>
    intro it hle hno
    have hlt : it < buf.length := by omega
    have hc : buf[it]? = some buf[it] := List.getElem?_eq_getElem hlt
    rw [terminatorsFrom_step K buf it buf[it] hc, hno it buf[it] (le_refl _) (by omega) hc,
      ih (it + 1) (by omega) (fun r c h1 h2 h3 => hno r c (by omega) (by omega) h3)]
    simp
    congr 1
    omega

theorem skipLines_at_end (K : Classifier) (buf : List Char) (fuel n : Nat) (h : 0 < fuel) :
    skipLines K buf fuel buf.length n = .ok (buf.length, n) := by
  cases fuel with
  | zero => omega
  | succ m => simp [skipLines]

/-- One call of `skipLine` whose first loop stops on a line terminator passes
exactly one line terminator, when no line terminator of the buffer is a tab or
a space. -/
theorem terminatorsFrom_skipLine (K : Classifier) (buf : List Char) (it p1 q : Nat)
    (hT : ∀ (r : Nat) (c : Char), buf[r]? = some c → K.IsLineEnd c = true → c ≠ '\t' ∧ c ≠ ' ')
    (h1 : it ≤ p1) (h2 : p1 < buf.length)
    (hterm : ∃ c, buf[p1]? = some c ∧ K.IsLineEnd c = true)
    (hrun : ∀ r, it ≤ r → r < p1 → isEndOfBuffer r buf.length = false ∧
      ∃ c, buf[r]? = some c ∧ K.IsLineEnd c = false)
    (h5 : p1 + 1 ≤ q) (h6 : q ≤ buf.length)
    (hblank : ∀ r, p1 + 1 ≤ r → r < q → ∃ c, buf[r]? = some c ∧ (c = '\t' ∨ c = ' ')) :
    terminatorsFrom K buf it = 1 + terminatorsFrom K buf q := by
  have e1 : terminatorsFrom K buf it = terminatorsFrom K buf (it + (p1 - it)) := by
    apply terminatorsFrom_skip K buf (p1 - it) it (by omega)
    intro r c hr1 hr2 hc
    obtain ⟨_, c2, hc2, hcc⟩ := hrun r hr1 (by omega)
    rw [hc] at hc2
    cases hc2
    exact hcc
  have e2 : terminatorsFrom K buf (p1 + 1) = terminatorsFrom K buf (p1 + 1 + (q - (p1 + 1))) := by
    apply terminatorsFrom_skip K buf (q - (p1 + 1)) (p1 + 1) (by omega)
    intro r c hr1 hr2 hc
    obtain ⟨c2, hc2, hcc⟩ := hblank r hr1 (by omega)
    rw [hc] at hc2
    cases hc2
    cases hl : K.IsLineEnd c
    · rfl
    · have := hT r c hc hl
      rcases hcc with hcc | hcc
      · exact absurd hcc this.1
      · exact absurd hcc this.2
  obtain ⟨c, hc, hl⟩ := hterm
  have e3 := terminatorsFrom_step K buf p1 c hc
  have a1 : it + (p1 - it) = p1 := by omega
  have a2 : p1 + 1 + (q - (p1 + 1)) = q := by omega
  rw [a1] at e1
  rw [a2] at e2
  rw [e1, e3, e2]
  simp [hl]

/-- On a buffer in which every position is followed by a line terminator (it
is empty or ends with one), the driver reaches `end` and has counted the line
terminators from the cursor on. -/
theorem skipLines_terminated (K : Classifier) (buf : List Char)
    (hT : ∀ (r : Nat) (c : Char), buf[r]? = some c → K.IsLineEnd c = true → c ≠ '\t' ∧ c ≠ ' ')
    (hlast : ∀ i, i < buf.length → ∃ p c, i ≤ p ∧ buf[p]? = some c ∧ K.IsLineEnd c = true) :
    ∀ (fuel it n : Nat), it ≤ buf.length → buf.length - it < fuel → n < UINT_RANGE →
      skipLines K buf fuel it n =
        .ok (buf.length, (n + terminatorsFrom K buf it) % UINT_RANGE) := by
  intro fuel
  induction fuel with
  | zero => intro it n h1 h2; omega
  | succ m ih =>
    intro it n hle hfuel hn
    by_cases he : it = buf.length
    · subst he
      rw [skipLines_at_end K buf (m + 1) n (by omega), terminatorsFrom_of_ge K buf _ (le_refl _),
        Nat.add_zero, Nat.mod_eq_of_lt hn]
    · have hlt : it < buf.length := by omega
      obtain ⟨p1, q, hs, h1, h2, h3, h4, h5, h6, _, h8⟩ := skipLine_ok K buf it n hlt
      have hterm : ∃ c, buf[p1]? = some c ∧ K.IsLineEnd c = true := by
        rcases h3 with hb | ht
        · obtain ⟨p, c, hp1, hp2, hp3⟩ := hlast it hlt
          have hplt := (List.getElem?_eq_some.mp hp2).1
          rw [isEndOfBuffer_eq_true_iff] at hb
          by_cases hpp : p < p1
          · obtain ⟨_, c2, hc2, hcc⟩ := h4 p hp1 hpp
            rw [hp2] at hc2
            cases hc2
            rw [hp3] at hcc
            cases hcc
          · have : p = p1 := by omega
            subst this
            exact ⟨c, hp2, hp3⟩
        · exact ht
      have hcnt := terminatorsFrom_skipLine K buf it p1 q hT h1 h2 hterm h4 h5 h6 h8
      have hn1 : (n + 1) % UINT_RANGE < UINT_RANGE := Nat.mod_lt _ (by rw [UINT_RANGE_eq]; omega)
      have hrec := ih q ((n + 1) % UINT_RANGE) h6 (by omega) hn1
      unfold skipLines
      simp only [he, if_false, hs, hrec, hcnt]
      congr 2
      rw [UINT_RANGE_eq]
      omega

/-- On a buffer with a character other than tab and space at position `f` and
no line terminator from `f` on, the driver started at or before `f` reaches
`end` and has counted the line terminators from the cursor on, plus one for
the last line. -/
theorem skipLines_unterminated (K : Classifier) (buf : List Char) (f : Nat)
    (hT : ∀ (r : Nat) (c : Char), buf[r]? = some c → K.IsLineEnd c = true → c ≠ '\t' ∧ c ≠ ' ')
    (hf : ∃ c, buf[f]? = some c ∧ c ≠ '\t' ∧ c ≠ ' ')
    (htail : ∀ r c, f ≤ r → buf[r]? = some c → K.IsLineEnd c = false) :
    ∀ (fuel it n : Nat), it ≤ f → buf.length - it < fuel → n < UINT_RANGE →
      skipLines K buf fuel it n =
        .ok (buf.length, (n + terminatorsFrom K buf it + 1) % UINT_RANGE) := by
  obtain ⟨cf, hcf, hcf1, hcf2⟩ := hf
  have hflt : f < buf.length := (List.getElem?_eq_some.mp hcf).1
  intro fuel
  induction fuel with
  | zero => intro it n h1 h2; omega
  | succ m ih =>
    intro it n hle hfuel hn
    have hlt : it < buf.length := by omega
    have he : it ≠ buf.length := by omega
    obtain ⟨p1, q, hs, h1, h2, h3, h4, h5, h6, _, h8⟩ := skipLine_ok K buf it n hlt
    have hn1 : (n + 1) % UINT_RANGE < UINT_RANGE := Nat.mod_lt _ (by rw [UINT_RANGE_eq]; omega)
    unfold skipLines
    simp only [he, if_false, hs]
    by_cases hterm : ∃ c, buf[p1]? = some c ∧ K.IsLineEnd c = true
    · have hp1f : p1 < f := by
        by_contra hge
        obtain ⟨c, hc, hl⟩ := hterm
        have := htail p1 c (by omega) hc
        rw [hl] at this
        cases this
      have hqf : q ≤ f := by
        by_contra hgt
        obtain ⟨c, hc, hcc⟩ := h8 f (by omega) (by omega)
        rw [hcf] at hc
        cases hc
        rcases hcc with hcc | hcc
        · exact hcf1 hcc
        · exact hcf2 hcc
      have hcnt := terminatorsFrom_skipLine K buf it p1 q hT h1 h2 hterm h4 h5 h6 h8
      rw [ih q ((n + 1) % UINT_RANGE) hqf (by omega) hn1, hcnt]
      congr 2
      rw [UINT_RANGE_eq]
      omega
    · have hb : isEndOfBuffer p1 buf.length = true := by
        rcases h3 with hb | ht
        · exact hb
        · exact absurd ht hterm
      rw [isEndOfBuffer_eq_true_iff] at hb
      have hq : q = buf.length := by omega
      have hzero : terminatorsFrom K buf it = 0 := by
        have e1 : terminatorsFrom K buf it = terminatorsFrom K buf (it + (buf.length - it)) := by
          apply terminatorsFrom_skip K buf (buf.length - it) it (by omega)
          intro r c hr1 hr2 hc
          by_cases hr : r < p1
          · obtain ⟨_, c2, hc2, hcc⟩ := h4 r hr1 hr
            rw [hc] at hc2
            cases hc2
            exact hcc
          · have hrp : r = p1 := by omega
            subst hrp
            cases hl : K.IsLineEnd c
            · rfl
            · exact absurd ⟨c, hc, hl⟩ hterm
        rw [e1, terminatorsFrom_of_ge K buf _ (by omega)]
      rw [hq, skipLines_at_end K buf m _ (by omega), hzero]

theorem mem_joinLines (lines : List (List Char)) (c : Char) (h : c ∈ joinLines lines) :
    c = '\n' ∨ ∃ l ∈ lines, c ∈ l := by
  induction lines with
  | nil => simp [joinLines] at h
  | cons l ls ih =>
    simp only [joinLines, List.mem_append, List.mem_cons] at h
    rcases h with h | h | h
    · exact Or.inr ⟨l, List.mem_cons_self _ _, h⟩
    · exact Or.inl h
    · rcases ih h with h1 | ⟨l2, hl2, hc⟩
      · exact Or.inl h1
      · exact Or.inr ⟨l2, List.mem_cons_of_mem _ hl2, hc⟩

theorem countP_joinLines (K : Classifier) (lines : List (List Char))
    (hnl : K.IsLineEnd '\n' = true)
    (hlines : ∀ l ∈ lines, ∀ c ∈ l, K.IsLineEnd c = false) :
    (joinLines lines).countP K.IsLineEnd = lines.length := by
  induction lines with
  | nil => rfl
  | cons l ls ih =>
    have h0 : l.countP K.IsLineEnd = 0 := by
      rw [List.countP_eq_zero]
      intro c hc
      simp [hlines l (List.mem_cons_self _ _) c hc]
    have hrest := ih (fun l2 hl2 => hlines l2 (List.mem_cons_of_mem _ hl2))
    simp only [joinLines, List.countP_append, List.countP_cons, h0, hnl, hrest, if_true,
      List.length_cons]
    omega

theorem joinLines_last (lines : List (List Char)) (h : lines ≠ []) :
    ∃ body, joinLines lines = body ++ ['\n'] := by
  induction lines with
  | nil => exact absurd rfl h
  | cons l ls ih =>
    by_cases hls : ls = []
    · subst hls
      exact ⟨l, by simp [joinLines]⟩
    · obtain ⟨body, hb⟩ := ih hls
      exact ⟨l ++ '\n' :: body, by simp [joinLines, hb]⟩

/-- C13, as the code has it: on the buffer made of `k` lines without line
terminator, each followed by a newline, `skipLine` repeated from position `0`
with the counter at `0` reaches `end` with the counter at `k` (an
`unsigned int`, so reduced modulo its range); with a final line without
terminator appended that holds a character other than tab and space, it
reaches `end` with the counter at `k + 1`. -/
theorem skipLine_round_trip (K : Classifier) (lines : List (List Char))
    (hnl : K.IsLineEnd '\n' = true)
    (hlines : ∀ l ∈ lines, ∀ c ∈ l, K.IsLineEnd c = false) :
    skipAllLines K (joinLines lines) =
      .ok ((joinLines lines).length, lines.length % UINT_RANGE) ∧
    ∀ final : List Char, (∀ c ∈ final, K.IsLineEnd c = false) →
      (∃ c ∈ final, c ≠ '\t' ∧ c ≠ ' ') →
      skipAllLines K (joinLines lines ++ final) =
        .ok ((joinLines lines ++ final).length, (lines.length + 1) % UINT_RANGE) := by
  have hmem : ∀ c, c ∈ joinLines lines → K.IsLineEnd c = true → c = '\n' := by
    intro c hc hl
    rcases mem_joinLines lines c hc with h2 | ⟨l, hl1, hl2⟩
    · exact h2
    · rw [hlines l hl1 c hl2] at hl
      cases hl
  constructor
  · have hT : ∀ (r : Nat) (c : Char), (joinLines lines)[r]? = some c → K.IsLineEnd c = true →
        c ≠ '\t' ∧ c ≠ ' ' := by
      intro r c hc hl
      have := hmem c (List.getElem?_mem hc) hl
      subst this
      exact ⟨by decide, by decide⟩
    have hlast : ∀ i, i < (joinLines lines).length →
        ∃ p c, i ≤ p ∧ (joinLines lines)[p]? = some c ∧ K.IsLineEnd c = true := by
      intro i hi
      have hne : lines ≠ [] := by
        intro he
        subst he
        simp [joinLines] at hi
      obtain ⟨body, hb⟩ := joinLines_last lines hne
      rw [hb] at hi ⊢
      simp only [List.length_append, List.length_singleton] at hi
      exact ⟨body.length, '\n', by omega, by simp, hnl⟩
    have := skipLines_terminated K (joinLines lines) hT hlast ((joinLines lines).length + 1) 0 0
      (by omega) (by omega) (by rw [UINT_RANGE_eq]; omega)
    unfold skipAllLines
    rw [this]
    simp [terminatorsFrom, countP_joinLines K lines hnl hlines]
  · intro final hfinal hcontent
    have hT : ∀ (r : Nat) (c : Char), (joinLines lines ++ final)[r]? = some c →
        K.IsLineEnd c = true → c ≠ '\t' ∧ c ≠ ' ' := by
      intro r c hc hl
      have hin : c ∈ joinLines lines ++ final := List.getElem?_mem hc
      have hnlc : c = '\n' := by
        rcases List.mem_append.mp hin with h1 | h1
        · exact hmem c h1 hl
        · rw [hfinal c h1] at hl
          cases hl
      subst hnlc
      exact ⟨by decide, by decide⟩
    obtain ⟨cf, hcf, hcf1, hcf2⟩ := hcontent
    obtain ⟨i, hi, hget⟩ := List.getElem_of_mem hcf
    have hfpos : (joinLines lines ++ final)[(joinLines lines).length + i]? = some cf := by
      rw [List.getElem?_append_right (by omega)]
      simp [List.getElem?_eq_getElem hi, hget]
    have htail : ∀ r c, (joinLines lines).length + i ≤ r →
        (joinLines lines ++ final)[r]? = some c → K.IsLineEnd c = false := by
      intro r c hr hc
      rw [List.getElem?_append_right (by omega)] at hc
      exact hfinal c (List.getElem?_mem hc)
    have := skipLines_unterminated K (joinLines lines ++ final) ((joinLines lines).length + i) hT
      ⟨cf, hfpos, hcf1, hcf2⟩ htail ((joinLines lines ++ final).length + 1) 0 0
      (by omega) (by omega) (by rw [UINT_RANGE_eq]; omega)
    unfold skipAllLines
    rw [this]
    have hz : final.countP K.IsLineEnd = 0 := by
      rw [List.countP_eq_zero]
      intro c hc
      simp [hfinal c hc]
    simp [terminatorsFrom, countP_joinLines K lines hnl hlines, hz]

theorem skipLine_round_trip_witness :
    specClassifier.IsLineEnd '\n' = true ∧
    skipAllLines specClassifier (joinLines [['a'], [' ', 'b']]) = .ok (5, 2) ∧
    skipAllLines specClassifier (joinLines [['a'], [' ', 'b']] ++ [' ', 'c']) = .ok (7, 3) ∧
    (skipAllLines specClassifier (joinLines [['a'], [' ', 'b']]) =
        .ok ((joinLines [['a'], [' ', 'b']]).length,
          [['a'], [' ', 'b']].length % UINT_RANGE) ∧
      ∀ final : List Char, (∀ c ∈ final, specClassifier.IsLineEnd c = false) →
        (∃ c ∈ final, c ≠ '\t' ∧ c ≠ ' ') →
        skipAllLines specClassifier (joinLines [['a'], [' ', 'b']] ++ final) =
          .ok ((joinLines [['a'], [' ', 'b']] ++ final).length,
            ([['a'], [' ', 'b']].length + 1) % UINT_RANGE)) :=
  ⟨rfl, rfl, rfl,
    skipLine_round_trip specClassifier [['a'], [' ', 'b']] rfl
      (by
        intro l hl c hc
        simp at hl
        rcases hl with hl | hl <;> subst hl <;> simp at hc
        · subst hc
          rfl
        · rcases hc with hc | hc <;> subst hc <;> rfl)⟩

/-- C13, as stated, fails: the buffer made of the line `a`, its newline, and a
final line of one space reaches `end` after one call of `skipLine`, with the
counter at `1` and not at `2`. -/
theorem skipLine_round_trip_counterexample :
    joinLines [['a']] ++ [' '] = ['a', '\n', ' '] ∧
    specClassifier.IsLineEnd ' ' = false ∧
    skipAllLines specClassifier (joinLines [['a']] ++ [' ']) = .ok (3, 1) :=
  ⟨rfl, rfl, rfl⟩

end Assimp
